import Mathlib

/-!
# Verification of the xgx-error library core

Shallow embedding of the xgx-error Go library (structured, classified,
immutable error values with context, stack capture, joining, and a generic
unwrap-graph traversal engine) together with proofs of its specified
properties.

The embedding is organised in fragments, each translated from the source:

* `XgxCtx`   — context.go: `Field`, `fields`, `ctxFromKV`, `ctxCloneAppend`,
  `ctxToMap` (final revision: whole-pair dropping, empty-key filtering).
* `XgxMem`   — construct.go: the three error variants (`failureErr`,
  `defectErr`, `interruptErr`) and their fluent copy-on-write mutators,
  modelled over an explicit store of backing arrays so that aliasing and
  copy-on-write can be stated and proved.
* `XgxJoin`  — join.go / wrap.go: `multi`, `Join`, `From`, and the stdlib
  `errors.Is` reachability over error values.
* `XgxTrav`  — unwrap.go: `markSeen`, `Flatten`, `Walk`, `HasCode` over an
  explicit heap of error nodes (so that cyclic graphs are expressible),
  executed step by step with fuel.
-/

namespace XgxCtx

/-- A dynamic Go value (`any`) as it appears in variadic key/value context
arguments: a string, an integer, `nil`, or some other opaque value. -/
inductive GoVal where
  | vstr (s : String)
  | vint (n : Int)
  | vnil
  | vother (tag : Nat)
deriving DecidableEq, Repr

/-- `Field` from context.go: a single contextual key-value pair. -/
structure Fld where
  key : String
  val : GoVal
deriving DecidableEq, Repr

/-- `ctxFromKV` from context.go (final revision): parses a variadic list of
key-value arguments into fields.  A non-string key causes the ENTIRE pair
(key and its following value, if any) to be dropped; a trailing key with no
value becomes `(key, nil)`. -/
def ctxFromKV : List GoVal → List Fld
  | [] => []
  | .vstr k :: v :: rest => ⟨k, v⟩ :: ctxFromKV rest
  | .vstr k :: [] => [⟨k, GoVal.vnil⟩]
  | _ :: _ :: rest => ctxFromKV rest
  | _ :: [] => []

/-- A Go `map[string]any` value, modelled as an association list where
inserting an existing key overwrites its value in place. -/
def GoMap := List (String × GoVal)

/-- Go map assignment `m[k] = v`: overwrite the binding if the key is
present, otherwise add it. -/
def mapInsert (m : GoMap) (k : String) (v : GoVal) : GoMap :=
  match m with
  | [] => [(k, v)]
  | (k', v') :: rest =>
    if k' = k then (k, v) :: rest else (k', v') :: mapInsert rest k v

/-- Go map lookup `m[k]`. -/
def mapLookup (m : GoMap) (k : String) : Option GoVal :=
  match m with
  | [] => none
  | (k', v') :: rest => if k' = k then some v' else mapLookup rest k

/-- `ctxToMap` from context.go (final revision): copy-on-read projection of
the ordered field list to a map.  Later duplicate keys overwrite earlier
ones (last-write-wins) and empty keys are filtered out. -/
def ctxToMap (fs : List Fld) : GoMap :=
  fs.foldl (fun m f => if f.key = "" then m else mapInsert m f.key f.val) []

/-- The last value written for key `k` in the ordered field list, ignoring
empty keys — the reference semantics of the map projection. -/
def lastVal (fs : List Fld) (k : String) : Option GoVal :=
  ((fs.filter (fun f => f.key = k)).getLast?).map Fld.val

theorem mapInsert_lookup_same (m : GoMap) (k : String) (v : GoVal) :
    mapLookup (mapInsert m k v) k = some v := by
  induction m with
  | nil => simp [mapInsert, mapLookup]
  | cons p rest ih =>
    by_cases h : p.1 = k
    · simp [mapInsert, mapLookup, h]
    · simp [mapInsert, mapLookup, h, ih]

theorem mapInsert_lookup_other (m : GoMap) (k k' : String) (v : GoVal)
    (h : ¬ k' = k) : mapLookup (mapInsert m k v) k' = mapLookup m k' := by
  have h' : ¬ k = k' := fun hkk => h hkk.symm
  induction m with
  | nil => simp [mapInsert, mapLookup, h']
  | cons p rest ih =>
    rcases p with ⟨pk, pv⟩
    by_cases hp : pk = k
    · show mapLookup (if pk = k then _ else _) k' = _
      rw [if_pos hp]
      show (if k = k' then _ else _) = (if pk = k' then some pv else _)
      rw [if_neg h', if_neg (hp ▸ h')]
    · show mapLookup (if pk = k then _ else _) k' = _
      rw [if_neg hp]
      by_cases hp' : pk = k'
      · show (if pk = k' then _ else _) = (if pk = k' then _ else _)
        rw [if_pos hp', if_pos hp']
      · show (if pk = k' then _ else _) = (if pk = k' then _ else _)
        rw [if_neg hp', if_neg hp']
        exact ih

/-- Generalised form of the last-write-wins lemma, tracking the fold
accumulator. -/
theorem ctxToMap_fold_lookup (fs : List Fld) (m : GoMap) (k : String)
    (hk : ¬ k = "") :
    mapLookup (fs.foldl
      (fun m f => if f.key = "" then m else mapInsert m f.key f.val) m) k =
    (match lastVal fs k with
     | some v => some v
     | none => mapLookup m k) := by
  induction fs generalizing m with
  | nil => simp [lastVal]
  | cons f rest ih =>
    by_cases he : f.key = ""
    · have hne : ¬ f.key = k := by rw [he]; exact fun h => hk h.symm
      rw [List.foldl_cons, if_pos he, ih]
      unfold lastVal
      rw [List.filter_cons, if_neg (by simpa using hne)]
    · by_cases hfk : f.key = k
      · rw [List.foldl_cons, if_neg he, ih]
        unfold lastVal
        rw [List.filter_cons, if_pos (by simpa using hfk)]
        rcases hnil : List.filter (fun f' => decide (f'.key = k)) rest with _ | ⟨a, as⟩
        · rw [hnil]
          simp only [List.getLast?_singleton, List.getLast?_nil, Option.map_some',
            Option.map_none']
          rw [← hfk]
          exact mapInsert_lookup_same m f.key f.val
        · rw [hnil, List.getLast?_cons_cons]
          rcases hgl : (a :: as).getLast? with _ | b
          · simp at hgl
          · rfl
      · rw [List.foldl_cons, if_neg he]
        have hmm : mapLookup (mapInsert m f.key f.val) k = mapLookup m k :=
          mapInsert_lookup_other m f.key k f.val (fun h => hfk h.symm)
        rw [ih, hmm]
        unfold lastVal
        rw [List.filter_cons, if_neg (by simpa using hfk)]

/-- Last-write-wins: looking up a non-empty key in the projected map yields
the last value stored for that key. -/
theorem ctxToMap_lookup (fs : List Fld) (k : String) (hk : ¬ k = "") :
    mapLookup (ctxToMap fs) k = lastVal fs k := by
  have h := ctxToMap_fold_lookup fs [] k hk
  unfold ctxToMap
  rw [h]
  rcases lastVal fs k with _ | v <;> rfl

/-- Empty keys never survive the projection. -/
theorem ctxToMap_empty_key (fs : List Fld) :
    mapLookup (ctxToMap fs) "" = none := by
  suffices h : ∀ m : GoMap, mapLookup m "" = none →
      mapLookup (fs.foldl
        (fun m f => if f.key = "" then m else mapInsert m f.key f.val) m) "" = none by
    exact h [] rfl
  induction fs with
  | nil => intro m hm; simpa using hm
  | cons f rest ih =>
    intro m hm
    by_cases he : f.key = ""
    · simp only [List.foldl_cons, if_pos he]
      exact ih m hm
    · simp only [List.foldl_cons, if_neg he]
      refine ih _ ?_
      rw [mapInsert_lookup_other m f.key "" f.val (fun h => he h.symm)]
      exact hm

end XgxCtx

namespace XgxMem

open XgxCtx

/-!
## The error value model (construct.go) over an explicit store

Go slices alias a backing array; context.go's copy-on-write contract is
about never writing through a published backing array.  To state that, the
embedding gives every context slice an explicit backing-array id (`Nat`)
resolved through a store.  Backing id `0` is the canonical `emptyFields`.
Stack captures are modelled as opaque fresh handles, and the maps returned
by `Context()` live in a separate map store so that caller-side mutation of
a returned map can be expressed.
-/

/-- The memory of the model: a store of context backing arrays (`store`,
fresh ids from `next`, id 0 reserved for the canonical `emptyFields`), a
counter for opaque stack-capture handles (`scnt`), and a store of maps
returned by `Context()` (`mstore`, fresh ids from `mnext`). -/
structure Mem where
  next : Nat
  store : Nat → List Fld
  scnt : Nat
  mnext : Nat
  mstore : Nat → GoMap

/-- Allocate a fresh backing array holding `data`. -/
def alloc (data : List Fld) (m : Mem) : Nat × Mem :=
  (m.next, { m with next := m.next + 1,
                    store := fun b => if b = m.next then data else m.store b })

/-- The backing id of the canonical `emptyFields` value. -/
def emptyBid : Nat := 0

/-- `ctxCloneAppend` from context.go (final revision): with no fields to
add, return `emptyFields` for an empty receiver and the receiver itself
otherwise (no allocation); with fields to add, allocate a fresh backing
array holding the concatenation. -/
def ctxCloneAppendM (dst : Nat) (add : List Fld) (m : Mem) : Nat × Mem :=
  if add = [] then
    if m.store dst = [] then (emptyBid, m) else (dst, m)
  else
    alloc (m.store dst ++ add) m

/-- The defensive context copy performed by each variant's `clone` method:
a non-empty context is copied into a fresh backing array, an empty one is
replaced by the canonical `emptyFields`. -/
def cloneCtx (ctx : Nat) (m : Mem) : Nat × Mem :=
  if m.store ctx = [] then (emptyBid, m) else alloc (m.store ctx) m

/-- `captureStackDefault` as an opaque primitive: yields a fresh stack
handle. -/
def captureStackM (m : Mem) : Nat × Mem :=
  (m.scnt, { m with scnt := m.scnt + 1 })

/-- An xgx error value: one of the three concrete variants of construct.go.
Causes are opaque references (`Nat` ids) to independently-owned error
values; an interrupt's cause is one of the two canonical context sentinels,
selected by `deadline`. -/
inductive ErrVal where
  | failV (msg : String) (code : String) (ctx : Nat) (cause : Option Nat) (stk : Option Nat)
  | defV (msg : String) (ctx : Nat) (cause : Nat) (stk : Nat)
  | intV (msg : String) (ctx : Nat) (deadline : Bool)
deriving DecidableEq, Repr

/-- The context backing id of an error value. -/
def ctxBid : ErrVal → Nat
  | .failV _ _ c _ _ => c
  | .defV _ c _ _ => c
  | .intV _ c _ => c

/-- The message field of an error value. -/
def rawMsg : ErrVal → String
  | .failV msg _ _ _ _ => msg
  | .defV msg _ _ _ => msg
  | .intV msg _ _ => msg

/-- The set-once message rule shared by all `Ctx`/`CtxBound` methods:
`if msg != "" && n.msg == "" { n.msg = msg }`. -/
def setOnce (cur msg : String) : String :=
  if ¬ msg = "" ∧ cur = "" then msg else cur

/-- The conditional context append shared by all `Ctx`/`CtxBound` methods:
`if len(kv) > 0 { n.ctx = ctxCloneAppend(n.ctx, ctxFromKV(kv...)...) }`. -/
def appendKV (ctx : Nat) (kv : List GoVal) (m : Mem) : Nat × Mem :=
  if kv = [] then (ctx, m) else ctxCloneAppendM ctx (ctxFromKV kv) m

/-- The bounding step of `CtxBound`: when `maxFields > 0` and the total
exceeds it, keep the newest `maxFields` entries in a fresh defensive
copy. -/
def boundCtx (ctx : Nat) (maxFields : Int) (m : Mem) : Nat × Mem :=
  if 0 < maxFields ∧ maxFields < ((m.store ctx).length : Int) then
    alloc ((m.store ctx).drop ((m.store ctx).length - maxFields.toNat)) m
  else (ctx, m)

/-- A fluent mutator invocation: the six copy-on-write operations shared by
all three variants. -/
inductive MutOp where
  | ctxOp (msg : String) (kv : List GoVal)
  | ctxBoundOp (msg : String) (maxFields : Int) (kv : List GoVal)
  | withOp (key : String) (val : GoVal)
  | codeOp (c : String)
  | stackOp
  | stackSkipOp (skip : Nat)
deriving DecidableEq, Repr

/-- The common `clone; set-once message; append kv` prefix of `Ctx` and
`CtxBound` (identical in all three variants of construct.go). -/
def ctxStep (msg0 : String) (ctx0 : Nat) (ms : String) (kv : List GoVal)
    (m : Mem) : String × Nat × Mem :=
  let r1 := cloneCtx ctx0 m
  let r2 := appendKV r1.1 kv r1.2
  (setOnce msg0 ms, r2.1, r2.2)

/-- `applyOp op e m` executes one fluent mutator on an error value,
following construct.go's per-variant methods: `Ctx`, `CtxBound`, `With`,
`Code`, `WithStack`, `WithStackSkip`.  `Code` replaces the code only on the
Failure variant (documented no-op clone on Defect and Interrupt);
`WithStack`/`WithStackSkip` capture a fresh stack only on Failure (no-op
clone on Defect, which captured at construction, and on Interrupt, which
never carries a stack). -/
def applyOp (op : MutOp) (e : ErrVal) (m : Mem) : ErrVal × Mem :=
  match e with
  | .failV msg code ctx cause stk =>
    match op with
    | .ctxOp ms kv =>
      let r := ctxStep msg ctx ms kv m
      (.failV r.1 code r.2.1 cause stk, r.2.2)
    | .ctxBoundOp ms maxFields kv =>
      let r := ctxStep msg ctx ms kv m
      let rb := boundCtx r.2.1 maxFields r.2.2
      (.failV r.1 code rb.1 cause stk, rb.2)
    | .withOp k v =>
      let r1 := cloneCtx ctx m
      let r2 := ctxCloneAppendM r1.1 [⟨k, v⟩] r1.2
      (.failV msg code r2.1 cause stk, r2.2)
    | .codeOp c =>
      let r1 := cloneCtx ctx m
      (.failV msg c r1.1 cause stk, r1.2)
    | .stackOp =>
      let r1 := cloneCtx ctx m
      let rs := captureStackM r1.2
      (.failV msg code r1.1 cause (some rs.1), rs.2)
    | .stackSkipOp _ =>
      let r1 := cloneCtx ctx m
      let rs := captureStackM r1.2
      (.failV msg code r1.1 cause (some rs.1), rs.2)
  | .defV msg ctx cause stk =>
    match op with
    | .ctxOp ms kv =>
      let r := ctxStep msg ctx ms kv m
      (.defV r.1 r.2.1 cause stk, r.2.2)
    | .ctxBoundOp ms maxFields kv =>
      let r := ctxStep msg ctx ms kv m
      let rb := boundCtx r.2.1 maxFields r.2.2
      (.defV r.1 rb.1 cause stk, rb.2)
    | .withOp k v =>
      let r1 := cloneCtx ctx m
      let r2 := ctxCloneAppendM r1.1 [⟨k, v⟩] r1.2
      (.defV msg r2.1 cause stk, r2.2)
    | .codeOp _ =>
      let r1 := cloneCtx ctx m
      (.defV msg r1.1 cause stk, r1.2)
    | .stackOp =>
      let r1 := cloneCtx ctx m
      (.defV msg r1.1 cause stk, r1.2)
    | .stackSkipOp _ =>
      let r1 := cloneCtx ctx m
      (.defV msg r1.1 cause stk, r1.2)
  | .intV msg ctx dl =>
    match op with
    | .ctxOp ms kv =>
      let r := ctxStep msg ctx ms kv m
      (.intV r.1 r.2.1 dl, r.2.2)
    | .ctxBoundOp ms maxFields kv =>
      let r := ctxStep msg ctx ms kv m
      let rb := boundCtx r.2.1 maxFields r.2.2
      (.intV r.1 rb.1 dl, rb.2)
    | .withOp k v =>
      let r1 := cloneCtx ctx m
      let r2 := ctxCloneAppendM r1.1 [⟨k, v⟩] r1.2
      (.intV msg r2.1 dl, r2.2)
    | .codeOp _ =>
      let r1 := cloneCtx ctx m
      (.intV msg r1.1 dl, r1.2)
    | .stackOp =>
      let r1 := cloneCtx ctx m
      (.intV msg r1.1 dl, r1.2)
    | .stackSkipOp _ =>
      let r1 := cloneCtx ctx m
      (.intV msg r1.1 dl, r1.2)

/-- The cause of an error value as returned by `Unwrap`: nothing, an opaque
reference, or one of the two canonical cancellation sentinels. -/
inductive CauseV where
  | cnone
  | cref (id : Nat)
  | canceled
  | deadline
deriving DecidableEq, Repr

/-- The observables of an error value: message, classification (`CodeVal`),
stored context (ordered) and its `Context()` map projection, `Unwrap`
cause, and stack.  The `Error()` rendering of each variant is a pure
function of `omsg`, `ocode` and `ocause`, so its preservation follows from
theirs. -/
structure ObsV where
  omsg : String
  ocode : String
  octx : List Fld
  octxMap : GoMap
  ocause : CauseV
  ostk : Option Nat

/-- Query every observable of an error value under a given memory. -/
def obsM (e : ErrVal) (m : Mem) : ObsV :=
  match e with
  | .failV msg code ctx cause stk =>
    ⟨msg, code, m.store ctx, ctxToMap (m.store ctx),
     (match cause with | none => .cnone | some i => .cref i), stk⟩
  | .defV msg ctx cause stk =>
    ⟨msg, "defect", m.store ctx, ctxToMap (m.store ctx), .cref cause, some stk⟩
  | .intV msg ctx dl =>
    ⟨msg, "interrupt", m.store ctx, ctxToMap (m.store ctx),
     (if dl then .deadline else .canceled), none⟩

/-- `Error()` of `failureErr`: generic fallback when both message and code
are empty, the code alone when only the message is empty, `"code: msg"`
when both are set. -/
def failErrStr (msg code : String) : String :=
  if msg = "" then (if code = "" then "error" else code)
  else if code = "" then msg else code ++ ": " ++ msg

/-- Well-formedness of the memory: id 0 really is the canonical empty
backing array, and at least id 0 has been allocated. -/
def WFM (m : Mem) : Prop := m.store 0 = [] ∧ 0 < m.next

/-- Well-formedness of an error value in a memory: its context backing id
has been allocated. -/
def EWF (e : ErrVal) (m : Mem) : Prop := ctxBid e < m.next

/-- `Context()` from construct.go: a copy-on-read snapshot.  It projects
the stored context through `ctxToMap` into a freshly allocated map that the
caller owns. -/
def ContextM (e : ErrVal) (m : Mem) : Nat × Mem :=
  let f : Nat → GoMap := fun i =>
    if i = m.mnext then ctxToMap (m.store (ctxBid e)) else m.mstore i
  (m.mnext, { m with mnext := m.mnext + 1, mstore := f })

/-- A caller-side mutation `m[k] = v` of a map previously returned by
`Context()`. -/
def mapWriteM (mid : Nat) (k : String) (v : GoVal) (m : Mem) : Mem :=
  { m with mstore := fun i =>
      if i = mid then mapInsert (m.mstore i) k v else m.mstore i }


/-!
### Copy-on-write lemmas

`MExt m m'` says `m'` extends `m` without touching any backing array that
was already allocated — the no-write-to-published-storage discipline that
context.go's "always allocate a fresh backing array" rule establishes.
-/

/-- Memory extension: no previously-allocated backing array is modified. -/
def MExt (m m' : Mem) : Prop :=
  m.next ≤ m'.next ∧ ∀ b, b < m.next → m'.store b = m.store b

theorem MExt_refl (m : Mem) : MExt m m := ⟨le_refl _, fun _ _ => rfl⟩

theorem MExt_trans {m1 m2 m3 : Mem} (h12 : MExt m1 m2) (h23 : MExt m2 m3) :
    MExt m1 m3 :=
  ⟨le_trans h12.1 h23.1,
   fun b hb => (h23.2 b (lt_of_lt_of_le hb h12.1)).trans (h12.2 b hb)⟩

theorem WFM_of_MExt {m m' : Mem} (hm : WFM m) (h : MExt m m') : WFM m' :=
  ⟨(h.2 0 hm.2).trans hm.1, lt_of_lt_of_le hm.2 h.1⟩

theorem EWF_of_MExt {e : ErrVal} {m m' : Mem} (he : EWF e m) (h : MExt m m') :
    EWF e m' := lt_of_lt_of_le he h.1

/-- Re-querying the observables of a value after any memory extension gives
the same answer: extensions never write through published storage. -/
theorem obsM_of_MExt {e : ErrVal} {m m' : Mem} (he : EWF e m) (h : MExt m m') :
    obsM e m' = obsM e m := by
  have hst : m'.store (ctxBid e) = m.store (ctxBid e) := h.2 _ he
  cases e with
  | failV msg code ctx cause stk =>
    simp only [obsM]
    rw [show m'.store ctx = m.store ctx from hst]
  | defV msg ctx cause stk =>
    simp only [obsM]
    rw [show m'.store ctx = m.store ctx from hst]
  | intV msg ctx dl =>
    simp only [obsM]
    rw [show m'.store ctx = m.store ctx from hst]

theorem alloc_spec (d : List Fld) (m : Mem) :
    MExt m (alloc d m).2 ∧ (alloc d m).2.next = m.next + 1 ∧
    (alloc d m).1 = m.next ∧ (alloc d m).2.store (alloc d m).1 = d := by
  refine ⟨⟨Nat.le_succ _, fun b hb => ?_⟩, rfl, rfl, ?_⟩
  · simp only [alloc]
    rw [if_neg (Nat.ne_of_lt hb)]
  · simp [alloc]

theorem cloneCtx_spec (ctx : Nat) (m : Mem) (hm : WFM m) :
    MExt m (cloneCtx ctx m).2 ∧ WFM (cloneCtx ctx m).2 ∧
    (cloneCtx ctx m).1 < (cloneCtx ctx m).2.next ∧
    (cloneCtx ctx m).2.store (cloneCtx ctx m).1 = m.store ctx := by
  by_cases h : m.store ctx = []
  · simp only [cloneCtx, if_pos h]
    exact ⟨MExt_refl m, hm, hm.2, hm.1.trans h.symm⟩
  · simp only [cloneCtx, if_neg h]
    obtain ⟨hx, hn, hr, hs⟩ := alloc_spec (m.store ctx) m
    exact ⟨hx, WFM_of_MExt hm hx, by rw [hn, hr]; exact Nat.lt_succ_self _, hs⟩

theorem ctxCloneAppendM_spec (dst : Nat) (add : List Fld) (m : Mem)
    (hd : dst < m.next) (hm : WFM m) :
    MExt m (ctxCloneAppendM dst add m).2 ∧ WFM (ctxCloneAppendM dst add m).2 ∧
    (ctxCloneAppendM dst add m).1 < (ctxCloneAppendM dst add m).2.next ∧
    (ctxCloneAppendM dst add m).2.store (ctxCloneAppendM dst add m).1 =
      m.store dst ++ add := by
  by_cases ha : add = []
  · by_cases hs : m.store dst = []
    · simp only [ctxCloneAppendM, if_pos ha, if_pos hs]
      refine ⟨MExt_refl m, hm, hm.2, ?_⟩
      rw [ha, hs, List.append_nil]
      exact hm.1
    · simp only [ctxCloneAppendM, if_pos ha, if_neg hs]
      refine ⟨MExt_refl m, hm, hd, ?_⟩
      rw [ha, List.append_nil]
  · simp only [ctxCloneAppendM, if_neg ha]
    obtain ⟨hx, hn, hr, hst⟩ := alloc_spec (m.store dst ++ add) m
    exact ⟨hx, WFM_of_MExt hm hx, by rw [hn, hr]; exact Nat.lt_succ_self _, hst⟩

theorem appendKV_spec (dst : Nat) (kv : List GoVal) (m : Mem)
    (hd : dst < m.next) (hm : WFM m) :
    MExt m (appendKV dst kv m).2 ∧ WFM (appendKV dst kv m).2 ∧
    (appendKV dst kv m).1 < (appendKV dst kv m).2.next ∧
    (appendKV dst kv m).2.store (appendKV dst kv m).1 =
      m.store dst ++ ctxFromKV kv := by
  by_cases hkv : kv = []
  · simp only [appendKV, if_pos hkv]
    refine ⟨MExt_refl m, hm, hd, ?_⟩
    rw [hkv]
    show m.store dst = m.store dst ++ ctxFromKV []
    rw [show ctxFromKV [] = [] from rfl, List.append_nil]
  · simp only [appendKV, if_neg hkv]
    exact ctxCloneAppendM_spec dst (ctxFromKV kv) m hd hm

theorem boundCtx_spec (ctx : Nat) (mf : Int) (m : Mem)
    (hc : ctx < m.next) (hm : WFM m) :
    MExt m (boundCtx ctx mf m).2 ∧ WFM (boundCtx ctx mf m).2 ∧
    (boundCtx ctx mf m).1 < (boundCtx ctx mf m).2.next := by
  by_cases h : 0 < mf ∧ mf < ((m.store ctx).length : Int)
  · simp only [boundCtx, if_pos h]
    obtain ⟨hx, hn, hr, _⟩ := alloc_spec _ m
    exact ⟨hx, WFM_of_MExt hm hx, by rw [hn, hr]; exact Nat.lt_succ_self _⟩
  · simp only [boundCtx, if_neg h]
    exact ⟨MExt_refl m, hm, hc⟩

theorem captureStackM_spec (m : Mem) :
    MExt m (captureStackM m).2 ∧ (captureStackM m).2.next = m.next ∧
    (captureStackM m).2.store = m.store :=
  ⟨⟨le_refl _, fun _ _ => rfl⟩, rfl, rfl⟩

theorem ctxStep_spec (msg0 : String) (ctx0 : Nat) (ms : String)
    (kv : List GoVal) (m : Mem) (hm : WFM m) :
    MExt m (ctxStep msg0 ctx0 ms kv m).2.2 ∧
    WFM (ctxStep msg0 ctx0 ms kv m).2.2 ∧
    (ctxStep msg0 ctx0 ms kv m).2.1 < (ctxStep msg0 ctx0 ms kv m).2.2.next ∧
    (ctxStep msg0 ctx0 ms kv m).2.2.store (ctxStep msg0 ctx0 ms kv m).2.1 =
      m.store ctx0 ++ ctxFromKV kv ∧
    (ctxStep msg0 ctx0 ms kv m).1 = setOnce msg0 ms := by
  obtain ⟨hx1, hm1, hr1, hs1⟩ := cloneCtx_spec ctx0 m hm
  obtain ⟨hx2, hm2, hr2, hs2⟩ :=
    appendKV_spec (cloneCtx ctx0 m).1 kv (cloneCtx ctx0 m).2 hr1 hm1
  refine ⟨MExt_trans hx1 hx2, hm2, hr2, ?_, rfl⟩
  simp only [ctxStep]
  rw [hs2, hs1]

/-- Frame/validity bundle for every fluent mutator: the memory is only
extended (no published backing array is written), stays well-formed, and
the returned value is well-formed in it. -/
theorem applyOp_spec (op : MutOp) (e : ErrVal) (m : Mem) (hm : WFM m) :
    MExt m (applyOp op e m).2 ∧ WFM (applyOp op e m).2 ∧
    EWF (applyOp op e m).1 (applyOp op e m).2 := by
  cases e with
  | failV msg code ctx cause stk =>
    cases op with
    | ctxOp ms kv =>
      obtain ⟨hx, hw, hr, _, _⟩ := ctxStep_spec msg ctx ms kv m hm
      exact ⟨hx, hw, hr⟩
    | ctxBoundOp ms mf kv =>
      obtain ⟨hx, hw, hr, _, _⟩ := ctxStep_spec msg ctx ms kv m hm
      obtain ⟨hx2, hw2, hr2⟩ :=
        boundCtx_spec (ctxStep msg ctx ms kv m).2.1 mf (ctxStep msg ctx ms kv m).2.2 hr hw
      exact ⟨MExt_trans hx hx2, hw2, hr2⟩
    | withOp k v =>
      obtain ⟨hx1, hw1, hr1, _⟩ := cloneCtx_spec ctx m hm
      obtain ⟨hx2, hw2, hr2, _⟩ :=
        ctxCloneAppendM_spec (cloneCtx ctx m).1 [⟨k, v⟩] (cloneCtx ctx m).2 hr1 hw1
      exact ⟨MExt_trans hx1 hx2, hw2, hr2⟩
    | codeOp c =>
      obtain ⟨hx1, hw1, hr1, _⟩ := cloneCtx_spec ctx m hm
      exact ⟨hx1, hw1, hr1⟩
    | stackOp =>
      obtain ⟨hx1, hw1, hr1, _⟩ := cloneCtx_spec ctx m hm
      obtain ⟨hx2, hn2, _⟩ := captureStackM_spec (cloneCtx ctx m).2
      refine ⟨MExt_trans hx1 hx2, WFM_of_MExt hw1 hx2, ?_⟩
      show (cloneCtx ctx m).1 < (captureStackM (cloneCtx ctx m).2).2.next
      rw [hn2]
      exact hr1
    | stackSkipOp n =>
      obtain ⟨hx1, hw1, hr1, _⟩ := cloneCtx_spec ctx m hm
      obtain ⟨hx2, hn2, _⟩ := captureStackM_spec (cloneCtx ctx m).2
      refine ⟨MExt_trans hx1 hx2, WFM_of_MExt hw1 hx2, ?_⟩
      show (cloneCtx ctx m).1 < (captureStackM (cloneCtx ctx m).2).2.next
      rw [hn2]
      exact hr1
  | defV msg ctx cause stk =>
    cases op with
    | ctxOp ms kv =>
      obtain ⟨hx, hw, hr, _, _⟩ := ctxStep_spec msg ctx ms kv m hm
      exact ⟨hx, hw, hr⟩
    | ctxBoundOp ms mf kv =>
      obtain ⟨hx, hw, hr, _, _⟩ := ctxStep_spec msg ctx ms kv m hm
      obtain ⟨hx2, hw2, hr2⟩ :=
        boundCtx_spec (ctxStep msg ctx ms kv m).2.1 mf (ctxStep msg ctx ms kv m).2.2 hr hw
      exact ⟨MExt_trans hx hx2, hw2, hr2⟩
    | withOp k v =>
      obtain ⟨hx1, hw1, hr1, _⟩ := cloneCtx_spec ctx m hm
      obtain ⟨hx2, hw2, hr2, _⟩ :=
        ctxCloneAppendM_spec (cloneCtx ctx m).1 [⟨k, v⟩] (cloneCtx ctx m).2 hr1 hw1
      exact ⟨MExt_trans hx1 hx2, hw2, hr2⟩
    | codeOp c =>
      obtain ⟨hx1, hw1, hr1, _⟩ := cloneCtx_spec ctx m hm
      exact ⟨hx1, hw1, hr1⟩
    | stackOp =>
      obtain ⟨hx1, hw1, hr1, _⟩ := cloneCtx_spec ctx m hm
      exact ⟨hx1, hw1, hr1⟩
    | stackSkipOp n =>
      obtain ⟨hx1, hw1, hr1, _⟩ := cloneCtx_spec ctx m hm
      exact ⟨hx1, hw1, hr1⟩
  | intV msg ctx dl =>
    cases op with
    | ctxOp ms kv =>
      obtain ⟨hx, hw, hr, _, _⟩ := ctxStep_spec msg ctx ms kv m hm
      exact ⟨hx, hw, hr⟩
    | ctxBoundOp ms mf kv =>
      obtain ⟨hx, hw, hr, _, _⟩ := ctxStep_spec msg ctx ms kv m hm
      obtain ⟨hx2, hw2, hr2⟩ :=
        boundCtx_spec (ctxStep msg ctx ms kv m).2.1 mf (ctxStep msg ctx ms kv m).2.2 hr hw
      exact ⟨MExt_trans hx hx2, hw2, hr2⟩
    | withOp k v =>
      obtain ⟨hx1, hw1, hr1, _⟩ := cloneCtx_spec ctx m hm
      obtain ⟨hx2, hw2, hr2, _⟩ :=
        ctxCloneAppendM_spec (cloneCtx ctx m).1 [⟨k, v⟩] (cloneCtx ctx m).2 hr1 hw1
      exact ⟨MExt_trans hx1 hx2, hw2, hr2⟩
    | codeOp c =>
      obtain ⟨hx1, hw1, hr1, _⟩ := cloneCtx_spec ctx m hm
      exact ⟨hx1, hw1, hr1⟩
    | stackOp =>
      obtain ⟨hx1, hw1, hr1, _⟩ := cloneCtx_spec ctx m hm
      exact ⟨hx1, hw1, hr1⟩
    | stackSkipOp n =>
      obtain ⟨hx1, hw1, hr1, _⟩ := cloneCtx_spec ctx m hm
      exact ⟨hx1, hw1, hr1⟩


theorem setOnce_empty (ms : String) (h : ¬ ms = "") : setOnce "" ms = ms := by
  simp [setOnce, h]

theorem setOnce_keep (cur ms : String) (h : ¬ cur = "") : setOnce cur ms = cur := by
  simp [setOnce, h]

theorem applyOp_ctx_msg (ms : String) (kv : List GoVal) (e : ErrVal) (m : Mem) :
    rawMsg (applyOp (.ctxOp ms kv) e m).1 = setOnce (rawMsg e) ms := by
  cases e <;> rfl

theorem applyOp_ctxBound_msg (ms : String) (mf : Int) (kv : List GoVal)
    (e : ErrVal) (m : Mem) :
    rawMsg (applyOp (.ctxBoundOp ms mf kv) e m).1 = setOnce (rawMsg e) ms := by
  cases e <;> rfl

theorem applyOp_ctx_data (ms : String) (kv : List GoVal) (e : ErrVal) (m : Mem)
    (hm : WFM m) :
    (applyOp (.ctxOp ms kv) e m).2.store (ctxBid (applyOp (.ctxOp ms kv) e m).1) =
      m.store (ctxBid e) ++ ctxFromKV kv := by
  cases e with
  | failV msg code ctx cause stk =>
    obtain ⟨_, _, _, hs, _⟩ := ctxStep_spec msg ctx ms kv m hm
    exact hs
  | defV msg ctx cause stk =>
    obtain ⟨_, _, _, hs, _⟩ := ctxStep_spec msg ctx ms kv m hm
    exact hs
  | intV msg ctx dl =>
    obtain ⟨_, _, _, hs, _⟩ := ctxStep_spec msg ctx ms kv m hm
    exact hs

/-- C1.  Every fluent mutator (`Ctx`, `CtxBound`, `With`, `Code`,
`WithStack`, `WithStackSkip`) on any variant returns a new value without
altering any observable of the receiver: no previously published backing
array is ever written (`store` is preserved below `next`), so the
receiver's message, classification, context snapshot, cause and stack are
unchanged when re-queried after the call; and because the derived value is
also only ever mutated through fresh allocations, subsequently mutating the
clone can affect neither the original nor the clone's own published
observables. -/
theorem fluent_mutators_cow (op : MutOp) (e : ErrVal) (m : Mem)
    (hm : WFM m) (he : EWF e m) :
    (∀ b, b < m.next → ((applyOp op e m).2).store b = m.store b) ∧
    m.next ≤ ((applyOp op e m).2).next ∧
    obsM e ((applyOp op e m).2) = obsM e m ∧
    WFM (applyOp op e m).2 ∧ EWF (applyOp op e m).1 (applyOp op e m).2 ∧
    (∀ op2 : MutOp,
      obsM e ((applyOp op2 (applyOp op e m).1 (applyOp op e m).2).2) = obsM e m ∧
      obsM (applyOp op e m).1 ((applyOp op2 (applyOp op e m).1 (applyOp op e m).2).2) =
        obsM (applyOp op e m).1 (applyOp op e m).2) := by
  obtain ⟨hx, hw, he'⟩ := applyOp_spec op e m hm
  refine ⟨hx.2, hx.1, obsM_of_MExt he hx, hw, he', fun op2 => ?_⟩
  obtain ⟨hx2, _, _⟩ := applyOp_spec op2 (applyOp op e m).1 (applyOp op e m).2 hw
  constructor
  · rw [obsM_of_MExt (EWF_of_MExt he hx) hx2]
    exact obsM_of_MExt he hx
  · exact obsM_of_MExt he' hx2

/-- C6.  `Ctx` (and `CtxBound`, same message semantics) sets the message
only when the receiver's message is empty and never concatenates: chaining
two `Ctx` calls on an empty-message receiver leaves the first non-empty
message.  The key/value pairs are always appended to the context after
`ctxFromKV` parsing, under which a non-string key drops the entire pair and
a trailing unpaired string key is stored with a nil value. -/
theorem ctx_set_once_message (e : ErrVal) (m : Mem) (hm : WFM m)
    (ms1 ms2 : String) (mf1 mf2 : Int) (kv1 kv2 : List GoVal)
    (hmsg : rawMsg e = "") (h1 : ¬ ms1 = "") :
    rawMsg (applyOp (.ctxOp ms2 kv2)
        (applyOp (.ctxOp ms1 kv1) e m).1 (applyOp (.ctxOp ms1 kv1) e m).2).1 = ms1 ∧
    rawMsg (applyOp (.ctxBoundOp ms2 mf2 kv2)
        (applyOp (.ctxBoundOp ms1 mf1 kv1) e m).1
        (applyOp (.ctxBoundOp ms1 mf1 kv1) e m).2).1 = ms1 ∧
    (applyOp (.ctxOp ms1 kv1) e m).2.store
        (ctxBid (applyOp (.ctxOp ms1 kv1) e m).1) =
      m.store (ctxBid e) ++ ctxFromKV kv1 ∧
    (∀ (k v : GoVal) (rest : List GoVal), (∀ s, ¬ k = GoVal.vstr s) →
      ctxFromKV (k :: v :: rest) = ctxFromKV rest) ∧
    (∀ s : String, ctxFromKV [GoVal.vstr s] = [⟨s, GoVal.vnil⟩]) := by
  refine ⟨?_, ?_, applyOp_ctx_data ms1 kv1 e m hm, ?_, fun s => rfl⟩
  · rw [applyOp_ctx_msg, applyOp_ctx_msg, hmsg, setOnce_empty ms1 h1,
      setOnce_keep ms1 ms2 h1]
  · rw [applyOp_ctxBound_msg, applyOp_ctxBound_msg, hmsg, setOnce_empty ms1 h1,
      setOnce_keep ms1 ms2 h1]
  · intro k v rest hk
    cases k with
    | vstr s => exact absurd rfl (hk s)
    | vint n => rfl
    | vnil => rfl
    | vother t => rfl

/-- C7.  `Context()` projects the ordered field list to a key→value map
with last-write-wins per key and empty-string keys dropped, and the
returned map is an independent copy-on-read snapshot: writing into it
leaves the error's stored context — and any later snapshot — unchanged. -/
theorem context_snapshot_projection (e : ErrVal) (m : Mem) (k : String)
    (v : GoVal) (hk : ¬ k = "") :
    mapLookup ((ContextM e m).2.mstore (ContextM e m).1) k
      = lastVal (m.store (ctxBid e)) k ∧
    mapLookup ((ContextM e m).2.mstore (ContextM e m).1) "" = none ∧
    (mapWriteM (ContextM e m).1 k v (ContextM e m).2).store (ctxBid e)
      = m.store (ctxBid e) ∧
    (ContextM e (mapWriteM (ContextM e m).1 k v (ContextM e m).2)).2.mstore
        (ContextM e (mapWriteM (ContextM e m).1 k v (ContextM e m).2)).1
      = ctxToMap (m.store (ctxBid e)) := by
  have hmap : (ContextM e m).2.mstore (ContextM e m).1
      = ctxToMap (m.store (ctxBid e)) := by
    simp [ContextM]
  refine ⟨?_, ?_, rfl, ?_⟩
  · rw [hmap]
    exact ctxToMap_lookup _ k hk
  · rw [hmap]
    exact ctxToMap_empty_key _
  · simp [ContextM, mapWriteM]

/-- C8.  Reclassification is a no-op on the fixed variants: `Code(c)` on a
Defect returns an equivalent clone still classified `"defect"`, on an
Interrupt (including the deadline form) an equivalent clone still
classified `"interrupt"`; only on a Failure does it replace the
classification with `c`. -/
theorem reclassify_fixed_variants (c : String) (m : Mem) (hm : WFM m) :
    (∀ msg ctx cause stk,
      obsM (applyOp (.codeOp c) (.defV msg ctx cause stk) m).1
           (applyOp (.codeOp c) (.defV msg ctx cause stk) m).2
        = obsM (.defV msg ctx cause stk) m ∧
      (obsM (applyOp (.codeOp c) (.defV msg ctx cause stk) m).1
           (applyOp (.codeOp c) (.defV msg ctx cause stk) m).2).ocode = "defect") ∧
    (∀ msg ctx dl,
      obsM (applyOp (.codeOp c) (.intV msg ctx dl) m).1
           (applyOp (.codeOp c) (.intV msg ctx dl) m).2
        = obsM (.intV msg ctx dl) m ∧
      (obsM (applyOp (.codeOp c) (.intV msg ctx dl) m).1
           (applyOp (.codeOp c) (.intV msg ctx dl) m).2).ocode = "interrupt") ∧
    (∀ msg code ctx cause stk,
      (obsM (applyOp (.codeOp c) (.failV msg code ctx cause stk) m).1
           (applyOp (.codeOp c) (.failV msg code ctx cause stk) m).2).ocode = c ∧
      (obsM (applyOp (.codeOp c) (.failV msg code ctx cause stk) m).1
           (applyOp (.codeOp c) (.failV msg code ctx cause stk) m).2).octx
        = (obsM (.failV msg code ctx cause stk) m).octx ∧
      (obsM (applyOp (.codeOp c) (.failV msg code ctx cause stk) m).1
           (applyOp (.codeOp c) (.failV msg code ctx cause stk) m).2).omsg
        = (obsM (.failV msg code ctx cause stk) m).omsg) := by
  refine ⟨fun msg ctx cause stk => ?_, fun msg ctx dl => ?_,
    fun msg code ctx cause stk => ?_⟩
  · obtain ⟨_, _, _, hs⟩ := cloneCtx_spec ctx m hm
    constructor
    · simp only [applyOp, obsM]
      rw [hs]
    · rfl
  · obtain ⟨_, _, _, hs⟩ := cloneCtx_spec ctx m hm
    constructor
    · simp only [applyOp, obsM]
      rw [hs]
    · rfl
  · obtain ⟨_, _, _, hs⟩ := cloneCtx_spec ctx m hm
    refine ⟨rfl, ?_, rfl⟩
    simp only [applyOp, obsM]
    rw [hs]

/-- A minimal well-formed memory: only the canonical empty backing array
is allocated. -/
def memW : Mem := ⟨1, fun _ => [], 0, 0, fun _ => []⟩

/-- A sample failure value over `memW`. -/
def errW : ErrVal := .failV "" "bad_request" 0 none none

/-- A sample interrupt value with an empty message. -/
def errW6 : ErrVal := .intV "" 0 false

theorem fluent_mutators_cow_witness :
    obsM errW ((applyOp (.withOp "k" (GoVal.vint 1)) errW memW).2)
      = obsM errW memW :=
  (fluent_mutators_cow (.withOp "k" (GoVal.vint 1)) errW memW
    ⟨rfl, by decide⟩ (by show ctxBid errW < memW.next; decide)).2.2.1

theorem ctx_set_once_message_witness :
    rawMsg (applyOp (.ctxOp "second" [])
        (applyOp (.ctxOp "first" []) errW6 memW).1
        (applyOp (.ctxOp "first" []) errW6 memW).2).1 = "first" :=
  (ctx_set_once_message errW6 memW ⟨rfl, by decide⟩ "first" "second" 0 0 [] []
    rfl (by decide)).1

theorem context_snapshot_projection_witness :
    mapLookup ((ContextM errW memW).2.mstore (ContextM errW memW).1) "k"
      = lastVal (memW.store (ctxBid errW)) "k" :=
  (context_snapshot_projection errW memW "k" (GoVal.vint 7) (by decide)).1

theorem reclassify_fixed_variants_witness :
    (obsM (applyOp (.codeOp "timeout") (.defV "m" 0 5 3) memW).1
         (applyOp (.codeOp "timeout") (.defV "m" 0 5 3) memW).2).ocode
      = "defect" :=
  ((reclassify_fixed_variants "timeout" memW ⟨rfl, by decide⟩).1 "m" 0 5 3).2


end XgxMem

namespace XgxJoin

open XgxCtx

/-!
## Error values for joining and conversion (join.go, wrap.go)

For `Join`, `From` and `errors.Is` reachability the relevant structure of
an error value is its dynamic type and its unwrap graph, here as a mutual
inductive: foreign leaf errors, the three xgx variants, the two canonical
context sentinels, and the `multi` join container.  This fragment covers
the acyclic value-level semantics; cyclic graphs live in `XgxTrav`.
-/

mutual
/-- A Go error value as relevant to join.go and wrap.go: a foreign error
(`base`), the three xgx variants (`fe` = `failureErr`, `de` = `defectErr`,
`ie` = `interruptErr`), one of the two canonical context sentinels, or the
`multi` join container. -/
inductive GErr where
  | base (id : Nat) (msg : String)
  | fe (msg : String) (code : String) (ctx : List Fld) (cause : OGErr) (stk : Option Nat)
  | de (msg : String) (ctx : List Fld) (cause : GErr) (stk : Nat)
  | ie (msg : String) (ctx : List Fld) (deadline : Bool)
  | sentinel (deadline : Bool)
  | mu (errs : GList)
/-- An `error`-typed field that may be nil. -/
inductive OGErr where
  | none
  | some (e : GErr)
/-- A `[]error` list of children. -/
inductive GList where
  | nil
  | cons (e : GErr) (es : GList)
end

mutual
/-- Structural equality of error values — Go interface equality for the
purposes of `errors.Is`. -/
def geq : GErr → GErr → Bool
  | .base i1 m1, .base i2 m2 => decide (i1 = i2) && decide (m1 = m2)
  | .fe m1 c1 x1 ca1 s1, .fe m2 c2 x2 ca2 s2 =>
      decide (m1 = m2) && decide (c1 = c2) && decide (x1 = x2) &&
      geqO ca1 ca2 && decide (s1 = s2)
  | .de m1 x1 ca1 s1, .de m2 x2 ca2 s2 =>
      decide (m1 = m2) && decide (x1 = x2) && geq ca1 ca2 && decide (s1 = s2)
  | .ie m1 x1 d1, .ie m2 x2 d2 =>
      decide (m1 = m2) && decide (x1 = x2) && decide (d1 = d2)
  | .sentinel d1, .sentinel d2 => decide (d1 = d2)
  | .mu l1, .mu l2 => geqL l1 l2
  | _, _ => false
def geqO : OGErr → OGErr → Bool
  | .none, .none => true
  | .some a, .some b => geq a b
  | _, _ => false
def geqL : GList → GList → Bool
  | .nil, .nil => true
  | .cons a as, .cons b bs => geq a b && geqL as bs
  | _, _ => false
end

mutual
/-- `Error()` of each dynamic type: a foreign error's own message, the
failure precedence ladder, `"defect: ..."` falling back to the cause's
message, `"interrupt[: msg]"`, the canonical sentinel texts, and the
`multi` newline join (0 children → empty, 1 → the child's message,
otherwise newline-interleaved, as in join.go). -/
def errStr : GErr → String
  | .base _ m => m
  | .fe m c _ _ _ =>
      if m = "" then (if c = "" then "error" else c)
      else (if c = "" then m else c ++ ": " ++ m)
  | .de m _ cause _ =>
      if ¬ m = "" then "defect: " ++ m else "defect: " ++ errStr cause
  | .ie m _ _ => if ¬ m = "" then "interrupt: " ++ m else "interrupt"
  | .sentinel dl =>
      if dl then "context deadline exceeded" else "context canceled"
  | .mu es => muStr es
/-- `multi.Error()`: newline-concatenated child messages. -/
def muStr : GList → String
  | .nil => ""
  | .cons e .nil => errStr e
  | .cons e (.cons f rest) => errStr e ++ "\n" ++ muStr (.cons f rest)
end

mutual
/-- `errors.Is(e, t)`: equality at the node, else recurse through the
single (`Unwrap() error`) or multiple (`Unwrap() []error`) children.
An interrupt unwraps to its canonical sentinel. -/
def isB : GErr → GErr → Bool
  | .base i m, t => geq (.base i m) t
  | .fe m c x ca s, t => geq (.fe m c x ca s) t || isBO ca t
  | .de m x ca s, t => geq (.de m x ca s) t || isB ca t
  | .ie m x d, t => geq (.ie m x d) t || geq (.sentinel d) t
  | .sentinel d, t => geq (.sentinel d) t
  | .mu es, t => geq (.mu es) t || isBL es t
def isBO : OGErr → GErr → Bool
  | .none, _ => false
  | .some c, t => isB c t
def isBL : GList → GErr → Bool
  | .nil, _ => false
  | .cons e rest, t => isB e t || isBL rest t
end

/-- Drop the nil entries of a `[]error` argument list (the filtering loop
at the top of `Join`). -/
def filterNonNil : List (Option GErr) → List GErr
  | [] => []
  | some e :: rest => e :: filterNonNil rest
  | none :: rest => filterNonNil rest

/-- Package a Lean list of children as the `multi.errs` field. -/
def listToGList : List GErr → GList
  | [] => .nil
  | e :: es => .cons e (listToGList es)

/-- `Join` from join.go: filter nils; none left → nil, exactly one →
that error itself (identity preserved), two or more → a `multi`
container. -/
def JoinGo (errs : List (Option GErr)) : Option GErr :=
  match filterNonNil errs with
  | [] => none
  | [e] => some e
  | es => some (.mu (listToGList es))

/-- Dynamic type check `err.(xgxerror.Error)`: only the three concrete
variants implement the full fluent interface (`multi` and foreign errors
do not). -/
def isXgxError : GErr → Bool
  | .fe _ _ _ _ _ => true
  | .de _ _ _ _ => true
  | .ie _ _ _ => true
  | _ => false

/-- `From` from wrap.go: nil → nil; an error already implementing the
`Error` interface is returned as-is; anything else is wrapped as an
internal failure with no stack. -/
def FromGo : Option GErr → Option GErr
  | .none => .none
  | .some e =>
      if isXgxError e then some e
      else some (.fe "internal error" "internal" [] (.some e) .none)

/-- The specification-side "joined by newlines" rendering of a list of
messages, for comparison with `multi.Error()`. -/
def newlineJoin : List String → String
  | [] => ""
  | [s] => s
  | s :: rest => s ++ "\n" ++ newlineJoin rest

mutual
theorem geq_refl : ∀ e : GErr, geq e e = true
  | .base i m => by simp [geq]
  | .fe m c x ca s => by simp [geq, geqO_refl ca]
  | .de m x ca s => by simp [geq, geq_refl ca]
  | .ie m x d => by simp [geq]
  | .sentinel d => by simp [geq]
  | .mu es => by simp [geq, geqL_refl es]
theorem geqO_refl : ∀ o : OGErr, geqO o o = true
  | .none => rfl
  | .some e => geq_refl e
theorem geqL_refl : ∀ l : GList, geqL l l = true
  | .nil => rfl
  | .cons e rest => by simp [geqL, geq_refl e, geqL_refl rest]
end

/-- A node is reachable from itself under `errors.Is`. -/
theorem isB_self (e : GErr) : isB e e = true := by
  cases e <;> simp [isB, geq_refl]

/-- Any member of a child list is reachable from it. -/
theorem isBL_of_mem (l : List GErr) (c : GErr) (hc : c ∈ l) :
    isBL (listToGList l) c = true := by
  induction l with
  | nil => cases hc
  | cons a rest ih =>
    cases hc with
    | head => simp [listToGList, isBL, isB_self]
    | tail b h => simp [listToGList, isBL, ih h]

theorem muStr_newlineJoin (l : List GErr) :
    muStr (listToGList l) = newlineJoin (l.map errStr) := by
  induction l with
  | nil => rfl
  | cons a rest ih =>
    cases rest with
    | nil => rfl
    | cons b rest2 =>
      show errStr a ++ "\n" ++ muStr (listToGList (b :: rest2)) = _
      rw [ih]
      rcases rest2 with _ | ⟨d, ds⟩ <;> rfl


/-- C5.  `Join` filters out nil inputs; with zero non-nil inputs it returns
nil (in particular for `Join()` and `Join(nil, nil)`); with exactly one
non-nil input it returns that very value (identity preserved, no wrapping,
hence indistinguishable under `errors.Is`); and with two or more non-nil inputs
it returns a `multi` container whose children are exactly the non-nil
inputs, whose `Error()` is the children's concise messages joined by
newlines, and from which every child is reachable under `errors.Is`. -/
theorem join_filter_identity_multi :
    JoinGo [] = Option.none ∧
    JoinGo [Option.none, Option.none] = Option.none ∧
    (∀ errs : List (Option GErr), filterNonNil errs = [] →
      JoinGo errs = Option.none) ∧
    (∀ (errs : List (Option GErr)) (e : GErr), filterNonNil errs = [e] →
      JoinGo errs = some e) ∧
    (∀ (errs : List (Option GErr)) (l : List GErr),
      filterNonNil errs = l → 2 ≤ l.length →
      JoinGo errs = some (.mu (listToGList l)) ∧
      errStr (.mu (listToGList l)) = newlineJoin (l.map errStr) ∧
      ∀ c ∈ l, isB (.mu (listToGList l)) c = true) := by
  refine ⟨rfl, rfl, fun errs hl => ?_, fun errs e hl => ?_,
    fun errs l hl hlen => ?_⟩
  · unfold JoinGo
    rw [hl]
  · unfold JoinGo
    rw [hl]
  · rcases l with _ | ⟨a, _ | ⟨b, rest⟩⟩
    · simp at hlen
    · simp at hlen
    · refine ⟨?_, muStr_newlineJoin _, fun c hc => ?_⟩
      · unfold JoinGo
        rw [hl]
      · show (geq _ _ || isBL _ _) = true
        rw [isBL_of_mem _ c hc, Bool.or_true]

/-- C10.  `From` returns nil on nil, returns any value already
implementing the `Error` interface unchanged (the identical value, not a
wrapper), and is therefore idempotent on every input. -/
theorem from_identity_idempotent :
    FromGo Option.none = Option.none ∧
    (∀ e : GErr, isXgxError e = true → FromGo (some e) = some e) ∧
    (∀ x : Option GErr, FromGo (FromGo x) = FromGo x) := by
  refine ⟨rfl, fun e he => ?_, fun x => ?_⟩
  · simp [FromGo, he]
  · rcases x with _ | e
    · rfl
    · by_cases he : isXgxError e = true
      · simp [FromGo, he]
      · have h1 : FromGo (some e)
            = some (.fe "internal error" "internal" [] (.some e) .none) := by
          simp [FromGo, he]
        rw [h1]
        simp [FromGo, isXgxError]


/-- Two sample foreign errors. -/
def ga : GErr := .base 1 "a"

/-- Two sample foreign errors. -/
def gb : GErr := .base 2 "b"

/-- A sample failure value implementing the `Error` interface. -/
def gfe : GErr := .fe "m" "internal" [] .none .none

theorem join_filter_identity_multi_witness :
    JoinGo [some ga, some gb] = some (.mu (listToGList [ga, gb])) ∧
    errStr (.mu (listToGList [ga, gb])) = newlineJoin ([ga, gb].map errStr) ∧
    ∀ c ∈ [ga, gb], isB (.mu (listToGList [ga, gb])) c = true :=
  join_filter_identity_multi.2.2.2.2 [some ga, some gb] [ga, gb] rfl
    (by decide)

theorem from_identity_idempotent_witness :
    FromGo (some gfe) = some gfe :=
  from_identity_idempotent.2.1 gfe rfl


end XgxJoin

namespace XgxTrav

/-!
## The traversal engine (unwrap.go) over an explicit heap

Error graphs may be cyclic, so nodes are heap ids resolved through a
`Heap`.  A node's `Shape` records which unwrap interface its dynamic type
implements (`leaf` = neither; `single` = `Unwrap() error`, possibly
returning nil; `multi` = `Unwrap() []error`, entries possibly nil);
`registered` records whether the dual cycle guard can track the node
(comparable dynamic type → value set, pointer → identity set) or not
(non-comparable non-pointer, treated as always novel by `markSeen`);
`code` is the classification exposed by `CodeVal` for nodes implementing
the `coder` interface.  The Go loops are executed step by step with fuel:
`none` means the loop is still running after that many iterations. -/

/-- Which unwrap interface a node's dynamic type implements. -/
inductive Shape where
  | leaf
  | single (child : Option Nat)
  | multi (children : List (Option Nat))
deriving DecidableEq, Repr

/-- A heap of error nodes. -/
structure Heap where
  shape : Nat → Shape
  registered : Nat → Bool
  code : Nat → Option String

/-- `maxDepth` from unwrap.go: `1 << 12`. -/
def maxDepth : Nat := 4096

/-- `markSeen` from unwrap.go: registered nodes (comparable or pointer
dynamic types) are recorded in the seen set and refuse re-marking;
unregistered nodes are always treated as newly seen. -/
def markSeen (H : Heap) (id : Nat) (seen : List Nat) : Bool × List Nat :=
  if H.registered id then
    if id ∈ seen then (false, seen) else (true, id :: seen)
  else (true, seen)

/-- A Flatten stack frame: current node and next multi-child index. -/
structure FlFrame where
  e : Nat
  idx : Nat
deriving DecidableEq, Repr

/-- The Flatten loop state: stack (head = top), seen set, output. -/
structure FlState where
  stack : List FlFrame
  seen : List Nat
  out : List Nat
deriving DecidableEq, Repr

/-- The offset of the first non-nil entry (the whole length if none). -/
def firstSomeOffset : List (Option Nat) → Nat
  | [] => 0
  | some _ :: _ => 0
  | none :: rest => 1 + firstSomeOffset rest

/-- The nil-skipping loop inside Flatten's multi branch: the index is
advanced past nil children until a non-nil child or the end of the list
is reached. -/
def nextIdx (cs : List (Option Nat)) (i : Nat) : Nat :=
  i + firstSomeOffset (cs.drop i)

/-- One iteration of the Flatten loop body (stack known non-empty):
multi nodes explore their next non-nil child (pushing it when newly seen,
popping the parent once exhausted); single nodes descend in place when the
child is newly seen, pop without emitting when the child was already seen,
and are emitted as leaves when the child is nil; leaf nodes are emitted. -/
def flattenStep (H : Heap) (s : FlState) : FlState :=
  match s.stack with
  | [] => s
  | fr :: rest =>
    match H.shape fr.e with
    | .multi cs =>
      let j := nextIdx cs fr.idx
      if h : j < cs.length then
        match cs.get ⟨j, h⟩ with
        | some child =>
          let ms := markSeen H child s.seen
          if ms.1 then ⟨⟨child, 0⟩ :: ⟨fr.e, j + 1⟩ :: rest, ms.2, s.out⟩
          else ⟨⟨fr.e, j + 1⟩ :: rest, ms.2, s.out⟩
        | none => ⟨rest, s.seen, s.out⟩
      else ⟨rest, s.seen, s.out⟩
    | .single u =>
      match u with
      | some u =>
        let ms := markSeen H u s.seen
        if ms.1 then ⟨⟨u, fr.idx⟩ :: rest, ms.2, s.out⟩
        else ⟨rest, ms.2, s.out⟩
      | none => ⟨rest, s.seen, s.out ++ [fr.e]⟩
    | .leaf => ⟨rest, s.seen, s.out ++ [fr.e]⟩

/-- The Flatten loop: `for len(stack) > 0 && len(stack) < maxDepth`,
returning the collected leaves on exit; `none` when the fuel runs out
before the loop exits. -/
def flattenRun (H : Heap) : Nat → FlState → Option (List Nat)
  | 0, _ => none
  | f + 1, s =>
    if s.stack.length = 0 ∨ maxDepth ≤ s.stack.length then some s.out
    else flattenRun H f (flattenStep H s)

/-- `Flatten` from unwrap.go: nil returns nil; a node implementing
neither unwrap interface returns the singleton fast path; otherwise the
root is seeded (and marked) and the loop runs. -/
def flattenGo (H : Heap) (root : Option Nat) (fuel : Nat) : Option (List Nat) :=
  match root with
  | none => some []
  | some r =>
    match H.shape r with
    | .leaf => some [r]
    | _ => flattenRun H fuel ⟨[⟨r, 0⟩], (markSeen H r []).2, []⟩

/-- The descending push loop of Walk's multi branch: children are pushed
in reverse index order (so the first child ends on top), each guarded by
`markSeen`, nils skipped. -/
def pushKids (H : Heap) : List (Option Nat) → List Nat → List Nat → List Nat × List Nat
  | [], stack, seen => (stack, seen)
  | k :: rest, stack, seen =>
    let r := pushKids H rest stack seen
    match k with
    | none => r
    | some c =>
      let ms := markSeen H c r.2
      if ms.1 then (c :: r.1, ms.2) else (r.1, ms.2)

/-- The expansion performed by one Walk iteration after the visit
returned true: multi children pushed left-to-right-on-top, a single
non-nil newly-seen child pushed, leaves push nothing.  The third component
is the visit trace. -/
def walkExpand (H : Heap) (cur : Nat) (rest seen trace : List Nat) :
    List Nat × List Nat × List Nat :=
  match H.shape cur with
  | .multi cs =>
    let r := pushKids H cs rest seen
    (r.1, r.2, trace ++ [cur])
  | .single u =>
    match u with
    | some u =>
      let ms := markSeen H u seen
      (if ms.1 then u :: rest else rest, ms.2, trace ++ [cur])
    | none => (rest, seen, trace ++ [cur])
  | .leaf => (rest, seen, trace ++ [cur])

/-- The Walk loop: pop, visit (pre-order), stop on false, else expand;
returns the visit trace on exit, `none` when the fuel runs out first. -/
def walkRun (H : Heap) (visit : Nat → Bool) :
    Nat → List Nat → List Nat → List Nat → Option (List Nat)
  | 0, _, _, _ => none
  | f + 1, stack, seen, trace =>
    if stack.length = 0 ∨ maxDepth ≤ stack.length then some trace
    else
      match stack with
      | [] => some trace
      | cur :: rest =>
        if visit cur then
          let r := walkExpand H cur rest seen trace
          walkRun H visit f r.1 r.2.1 r.2.2
        else some (trace ++ [cur])

/-- `Walk` from unwrap.go: nil is a no-op, otherwise the root is seeded
(and marked) and the loop runs.  The result is the trace of visited
nodes. -/
def walkGo (H : Heap) (visit : Nat → Bool) (root : Option Nat) (fuel : Nat) :
    Option (List Nat) :=
  match root with
  | none => some []
  | some r => walkRun H visit fuel [r] (markSeen H r []).2 []

/-- `HasCode` from predicates.go: nil → false; otherwise Walk with a
visitor that stops (returns false) exactly when a node's `CodeVal` equals
the code; the result is whether such a node was seen. -/
def HasCodeGo (H : Heap) (root : Option Nat) (c : String) (fuel : Nat) :
    Option Bool :=
  match root with
  | none => some false
  | some r =>
    (walkGo H (fun id => ! (H.code id == some c)) (some r) fuel).map
      (fun tr => tr.any (fun id => H.code id == some c))

/-- A two-node cycle `A → B → A` of registered (pointer-identity) nodes. -/
def cyc2 : Heap :=
  ⟨fun i => if i = 0 then .single (some 1) else .single (some 0),
   fun _ => true, fun _ => none⟩

/-- A single non-comparable, non-pointer (unregistered) node whose
`Unwrap() error` returns the node itself. -/
def selfLoop : Heap :=
  ⟨fun _ => .single (some 0), fun _ => false, fun _ => none⟩

theorem selfLoop_flattenStep_fix :
    flattenStep selfLoop ⟨[⟨0, 0⟩], [], []⟩ = ⟨[⟨0, 0⟩], [], []⟩ := rfl

theorem selfLoop_flattenRun_none (f : Nat) :
    flattenRun selfLoop f ⟨[⟨0, 0⟩], [], []⟩ = none := by
  induction f with
  | zero => rfl
  | succ g ih =>
    show flattenRun selfLoop (g + 1) ⟨[⟨0, 0⟩], [], []⟩ = none
    rw [flattenRun, if_neg (by simp [maxDepth]), selfLoop_flattenStep_fix]
    exact ih

theorem selfLoop_walkRun_none (f : Nat) :
    ∀ trace, walkRun selfLoop (fun _ => true) f [0] [] trace = none := by
  induction f with
  | zero => intro trace; rfl
  | succ g ih =>
    intro trace
    show walkRun selfLoop (fun _ => true) (g + 1) [0] [] trace = none
    rw [walkRun, if_neg (by simp [maxDepth])]
    show walkRun selfLoop (fun _ => true) g [0] [] (trace ++ [0]) = none
    exact ih (trace ++ [0])

/-- C4.  The cycle guard works for registered nodes — on the two-node
pointer-identity cycle `A → B → A` both Flatten and Walk terminate (well
within the depth cap, here with fuel 10) — but the claim fails on the
code: for a non-comparable, non-pointer error whose `Unwrap() error`
returns itself, `markSeen` always reports the node as novel, the stack
length never grows towards the depth cap, and both Flatten and Walk loop
forever: no amount of fuel makes them return. -/
theorem traversal_cycle_termination_gap :
    (flattenGo cyc2 (some 0) 10 = some [] ∧
     walkGo cyc2 (fun _ => true) (some 0) 10 = some [0, 1]) ∧
    (∀ fuel, flattenGo selfLoop (some 0) fuel = none) ∧
    (∀ fuel, walkGo selfLoop (fun _ => true) (some 0) fuel = none) := by
  refine ⟨⟨by decide, by decide⟩, fun fuel => ?_, fun fuel => ?_⟩
  · show flattenRun selfLoop fuel ⟨[⟨0, 0⟩], (markSeen selfLoop 0 []).2, []⟩ = none
    exact selfLoop_flattenRun_none fuel
  · show walkRun selfLoop (fun _ => true) fuel [0] (markSeen selfLoop 0 []).2 [] = none
    exact selfLoop_walkRun_none fuel []


/-!
### Acyclic tree-shaped graphs

For the functional-correctness claims, acyclic graphs built from nested
single- and multi-cause wrapping are described by a mutual inductive of
trees and forests, related to a heap by `repTree`: a `leafT` node has no
further expansion (shape `leaf`, or `single` with a nil cause), a
`singleT` node unwraps to its child, a `multiT` node multi-unwraps to
exactly its children.  `ids` lists the nodes in depth-first discovery
(pre-)order. -/

mutual
/-- A tree-shaped error graph fragment. -/
inductive ETr where
  | leafT (id : Nat)
  | singleT (id : Nat) (child : ETr)
  | multiT (id : Nat) (children : EForest)
/-- An ordered forest of children. -/
inductive EForest where
  | fnil
  | fcons (t : ETr) (f : EForest)
end

/-- The heap id at the root of a tree. -/
def rid : ETr → Nat
  | .leafT i => i
  | .singleT i _ => i
  | .multiT i _ => i

mutual
/-- The ids strictly below the root, in discovery order. -/
def subIds : ETr → List Nat
  | .leafT _ => []
  | .singleT _ c => rid c :: subIds c
  | .multiT _ cs => idsF cs
/-- All ids of a forest, in discovery order. -/
def idsF : EForest → List Nat
  | .fnil => []
  | .fcons t f => (rid t :: subIds t) ++ idsF f
end

/-- All ids of a tree in depth-first discovery (pre-)order. -/
def ids (t : ETr) : List Nat := rid t :: subIds t

/-- The children list exposed by a multi node representing a forest. -/
def forestRoots : EForest → List (Option Nat)
  | .fnil => []
  | .fcons t f => some (rid t) :: forestRoots f

/-- The root ids of a forest. -/
def forestRids : EForest → List Nat
  | .fnil => []
  | .fcons t f => rid t :: forestRids f

mutual
/-- Size measures used for strong induction. -/
def tsize : ETr → Nat
  | .leafT _ => 1
  | .singleT _ c => 1 + tsize c
  | .multiT _ cs => 1 + fsize cs
def fsize : EForest → Nat
  | .fnil => 0
  | .fcons t f => 1 + tsize t + fsize f
end

mutual
/-- `repTree H t`: the heap agrees with the tree at every node. -/
def repTree (H : Heap) : ETr → Bool
  | .leafT i =>
      decide (H.shape i = .leaf) || decide (H.shape i = .single none)
  | .singleT i c =>
      decide (H.shape i = .single (some (rid c))) && repTree H c
  | .multiT i cs =>
      decide (H.shape i = .multi (forestRoots cs)) && repForest H cs
/-- `repForest H f`: componentwise agreement. -/
def repForest (H : Heap) : EForest → Bool
  | .fnil => true
  | .fcons t f => repTree H t && repForest H f
end

/-- A node with no further expansion: it either implements neither unwrap
interface or its `Unwrap() error` returns nil.  Flatten emits exactly
these. -/
def noExpansion (H : Heap) (i : Nat) : Bool :=
  decide (H.shape i = .leaf) || decide (H.shape i = .single none)

/-- The leaves of a tree in discovery order: its preorder id list
restricted to nodes with no further expansion. -/
def leafList (H : Heap) (t : ETr) : List Nat :=
  (ids t).filter (fun i => noExpansion H i)

/-- The leaves of a forest in discovery order. -/
def leafListF (H : Heap) (rem : EForest) : List Nat :=
  (idsF rem).filter (fun i => noExpansion H i)

theorem leafList_leafT (H : Heap) (i : Nat)
    (hs : H.shape i = .leaf ∨ H.shape i = .single none) :
    leafList H (.leafT i) = [i] := by
  rcases hs with hs | hs <;>
    simp [leafList, ids, subIds, noExpansion, rid, hs]

theorem leafList_singleT (H : Heap) (i : Nat) (c : ETr)
    (hs : H.shape i = .single (some (rid c))) :
    leafList H (.singleT i c) = leafList H c := by
  simp [leafList, ids, subIds, noExpansion, rid, hs, List.filter_cons]

theorem leafList_multiT (H : Heap) (i : Nat) (cs : EForest)
    (hs : H.shape i = .multi (forestRoots cs)) :
    leafList H (.multiT i cs) = leafListF H cs := by
  simp [leafList, leafListF, ids, subIds, noExpansion, rid, hs, List.filter_cons]

theorem leafListF_fnil (H : Heap) : leafListF H .fnil = [] := rfl

theorem leafListF_fcons (H : Heap) (c : ETr) (f : EForest) :
    leafListF H (.fcons c f) = leafList H c ++ leafListF H f := by
  show List.filter _ ((rid c :: subIds c) ++ idsF f) = _
  rw [List.filter_append]
  rfl

theorem markSeen_fresh (H : Heap) (id : Nat) (seen : List Nat)
    (h : id ∉ seen) :
    (markSeen H id seen).1 = true ∧ seen ⊆ (markSeen H id seen).2 ∧
    (markSeen H id seen).2 ⊆ id :: seen := by
  by_cases hr : H.registered id
  · have hms : markSeen H id seen = (true, id :: seen) := by
      simp [markSeen, hr, h]
    rw [hms]
    exact ⟨rfl, fun x hx => List.mem_cons_of_mem _ hx, fun x hx => hx⟩
  · have hms : markSeen H id seen = (true, seen) := by
      simp [markSeen, hr]
    rw [hms]
    exact ⟨rfl, fun x hx => hx, fun x hx => List.mem_cons_of_mem _ hx⟩

theorem markSeen_init_sub (H : Heap) (id : Nat) :
    (markSeen H id []).2 ⊆ [id] := by
  by_cases hr : H.registered id
  · simp [markSeen, hr]
  · simp [markSeen, hr]

/-- Guarded reflexive-transitive closure of the Flatten loop body: each
step requires the loop condition `0 < len(stack) < maxDepth`. -/
inductive FlSteps (H : Heap) : FlState → FlState → Prop where
  | refl (s : FlState) : FlSteps H s s
  | step (s s'' : FlState) (hne : ¬ s.stack.length = 0)
      (hlt : s.stack.length < maxDepth)
      (h : FlSteps H (flattenStep H s) s'') : FlSteps H s s''

theorem FlSteps_trans {H : Heap} {s1 s2 s3 : FlState}
    (h12 : FlSteps H s1 s2) (h23 : FlSteps H s2 s3) : FlSteps H s1 s3 := by
  induction h12 with
  | refl _ => exact h23
  | step s s'' hne hlt _ ih => exact FlSteps.step s s3 hne hlt (ih h23)

theorem flattenRun_mono {H : Heap} {f : Nat} {s : FlState} {out : List Nat}
    (h : flattenRun H f s = some out) :
    ∀ g, f ≤ g → flattenRun H g s = some out := by
  induction f generalizing s with
  | zero => simp [flattenRun] at h
  | succ f ih =>
    intro g hg
    obtain ⟨g', rfl⟩ : ∃ g', g = g' + 1 := ⟨g - 1, by omega⟩
    rw [flattenRun] at h ⊢
    by_cases hc : s.stack.length = 0 ∨ maxDepth ≤ s.stack.length
    · rw [if_pos hc] at h ⊢
      exact h
    · rw [if_neg hc] at h ⊢
      exact ih h g' (by omega)

theorem flattenRun_of_steps {H : Heap} {s s' : FlState}
    (h : FlSteps H s s') {f : Nat} {out : List Nat}
    (hrun : flattenRun H f s' = some out) :
    ∃ g, flattenRun H g s = some out := by
  induction h with
  | refl s => exact ⟨f, hrun⟩
  | step s s'' hne hlt _ ih =>
    obtain ⟨g, hg⟩ := ih hrun
    refine ⟨g + 1, ?_⟩
    rw [flattenRun, if_neg ?_]
    · exact hg
    · simp only [not_or]
      exact ⟨hne, by omega⟩


theorem drop_len_le {cs : List (Option Nat)} {k : Nat} (h : cs.drop k = []) :
    cs.length ≤ k := by
  have h1 := congrArg List.length h
  simp [List.length_drop] at h1
  omega

theorem drop_cons_spec {cs : List (Option Nat)} {k : Nat} {r : Option Nat}
    {tail : List (Option Nat)} (h : cs.drop k = r :: tail) :
    ∃ hk : k < cs.length,
      cs.get ⟨k, hk⟩ = r ∧ cs.drop (k + 1) = tail := by
  have hk : k < cs.length := by
    by_contra hk
    rw [List.drop_eq_nil_of_le (by omega)] at h
    exact absurd h (by simp)
  have hd := List.drop_eq_get_cons hk
  rw [h] at hd
  exact ⟨hk, (List.cons.injEq _ _ _ _ ▸ hd).1.symm,
    ((List.cons.injEq _ _ _ _ ▸ hd).2).symm⟩

theorem nextIdx_at_cons {cs : List (Option Nat)} {k : Nat} {c : Nat}
    {tail : List (Option Nat)} (hdrop : cs.drop k = some c :: tail) :
    nextIdx cs k = k := by
  rw [nextIdx, hdrop]
  rfl

theorem nextIdx_drop_nil {cs : List (Option Nat)} {k : Nat}
    (hdrop : cs.drop k = []) : nextIdx cs k = k := by
  rw [nextIdx, hdrop]
  rfl

/-- Processing statement for a single subtree sitting on top of the
Flatten stack: its frame is consumed, its leaves are appended to the
output, and the seen set grows by at most its ids. -/
def AStmt (H : Heap) (t : ETr) : Prop :=
  ∀ (rest : List FlFrame) (seen out : List Nat),
    repTree H t = true → (ids t).Nodup →
    (∀ x ∈ subIds t, x ∉ seen) →
    rest.length + (ids t).length < maxDepth →
    ∃ seen', seen ⊆ seen' ∧ seen' ⊆ seen ++ ids t ∧
      FlSteps H ⟨⟨rid t, 0⟩ :: rest, seen, out⟩
        ⟨rest, seen', out ++ leafList H t⟩

/-- Processing statement for the remaining children (a forest) of a
multi frame whose index has advanced to `k`. -/
def FStmt (H : Heap) (rem : EForest) : Prop :=
  ∀ (i k : Nat) (cs : List (Option Nat)) (rest : List FlFrame)
    (seen out : List Nat),
    H.shape i = .multi cs → cs.drop k = forestRoots rem →
    repForest H rem = true → (idsF rem).Nodup →
    (∀ x ∈ idsF rem, x ∉ seen) →
    rest.length + 1 + (idsF rem).length < maxDepth →
    ∃ seen', seen ⊆ seen' ∧ seen' ⊆ seen ++ idsF rem ∧
      FlSteps H ⟨⟨i, k⟩ :: rest, seen, out⟩
        ⟨rest, seen', out ++ leafListF H rem⟩

theorem flatten_main (H : Heap) : ∀ n : Nat,
    (∀ t : ETr, tsize t ≤ n → AStmt H t) ∧
    (∀ rem : EForest, fsize rem ≤ n → FStmt H rem) := by
  intro n
  induction n using Nat.strong_induction_on with
  | _ n ih =>
  constructor
  · intro t hsz
    cases t with
    | leafT i =>
      intro rest seen out hrep hnd hfresh hb
      have hs : H.shape i = .leaf ∨ H.shape i = .single none := by
        simpa [repTree] using hrep
      refine ⟨seen, fun x hx => hx, fun x hx => List.mem_append_left _ hx, ?_⟩
      rw [leafList_leafT H i hs]
      have hlen1 : (ids (ETr.leafT i)).length = 1 := rfl
      refine FlSteps.step _ _ (by simp) (by simp only [List.length_cons]; omega) ?_
      have hstep : flattenStep H ⟨⟨rid (ETr.leafT i), 0⟩ :: rest, seen, out⟩
          = ⟨rest, seen, out ++ [i]⟩ := by
        rcases hs with h | h <;> simp [flattenStep, rid, h]
      rw [hstep]
      exact FlSteps.refl _
    | singleT i c =>
      intro rest seen out hrep hnd hfresh hb
      have hrep' : H.shape i = .single (some (rid c)) ∧ repTree H c = true := by
        simpa [repTree] using hrep
      obtain ⟨hs, hrc⟩ := hrep'
      have hndc : (i :: ids c).Nodup := hnd
      have hnd1 : i ∉ ids c := (List.nodup_cons.mp hndc).1
      have hnd2 : (ids c).Nodup := (List.nodup_cons.mp hndc).2
      have hfr : ∀ x ∈ ids c, x ∉ seen := hfresh
      have hrcnot : rid c ∉ seen := hfr (rid c) (List.mem_cons_self _ _)
      obtain ⟨hm1, hm2, hm3⟩ := markSeen_fresh H (rid c) seen hrcnot
      have hszc : tsize c < n := by
        have : tsize (ETr.singleT i c) = 1 + tsize c := by simp [tsize]
        omega
      have hAc := (ih (tsize c) hszc).1 c (le_refl _)
      have hlenc : (ids (ETr.singleT i c)).length = 1 + (ids c).length := by
        simp only [ids, subIds, List.length_cons]
        omega
      obtain ⟨seen2, h21, h22, hstepsA⟩ :=
        hAc rest (markSeen H (rid c) seen).2 out hrc hnd2
          (by
            intro x hx hmem
            rcases List.mem_cons.mp (hm3 hmem) with hx1 | hx1
            · rw [hx1] at hx
              exact (List.nodup_cons.mp hnd2).1 hx
            · exact hfr x (List.mem_cons_of_mem _ hx) hx1)
          (by omega)
      refine ⟨seen2, fun x hx => h21 (hm2 hx), ?_, ?_⟩
      · intro x hx
        rcases List.mem_append.mp (h22 hx) with hx1 | hx1
        · rcases List.mem_cons.mp (hm3 hx1) with hx2 | hx2
          · refine List.mem_append_right _ ?_
            rw [hx2]
            exact List.mem_cons_of_mem _ (List.mem_cons_self _ _)
          · exact List.mem_append_left _ hx2
        · exact List.mem_append_right _ (List.mem_cons_of_mem _ hx1)
      · rw [leafList_singleT H i c hs]
        refine FlSteps.step _ _ (by simp) (by simp only [List.length_cons]; omega) ?_
        have hstep : flattenStep H ⟨⟨rid (ETr.singleT i c), 0⟩ :: rest, seen, out⟩
            = ⟨⟨rid c, 0⟩ :: rest, (markSeen H (rid c) seen).2, out⟩ := by
          show flattenStep H ⟨⟨i, 0⟩ :: rest, seen, out⟩ = _
          simp [flattenStep, hs, hm1]
        rw [hstep]
        exact hstepsA
    | multiT i cs =>
      intro rest seen out hrep hnd hfresh hb
      have hrep' : H.shape i = .multi (forestRoots cs) ∧ repForest H cs = true := by
        simpa [repTree] using hrep
      obtain ⟨hs, hrf⟩ := hrep'
      have hszf : fsize cs < n := by
        have : tsize (ETr.multiT i cs) = 1 + fsize cs := by simp [tsize]
        omega
      have hF := (ih (fsize cs) hszf).2 cs (le_refl _)
      have hndf : (idsF cs).Nodup := (List.nodup_cons.mp hnd).2
      have hlen : (ids (ETr.multiT i cs)).length = 1 + (idsF cs).length := by
        simp only [ids, subIds, List.length_cons]
        omega
      obtain ⟨seen', h1, h2, hsteps⟩ :=
        hF i 0 (forestRoots cs) rest seen out hs rfl hrf hndf hfresh (by omega)
      refine ⟨seen', h1, ?_, ?_⟩
      · intro x hx
        rcases List.mem_append.mp (h2 hx) with hx1 | hx1
        · exact List.mem_append_left _ hx1
        · exact List.mem_append_right _ (List.mem_cons_of_mem _ hx1)
      · rw [leafList_multiT H i cs hs]
        exact hsteps
  · intro rem hsz
    cases rem with
    | fnil =>
      intro i k cs rest seen out hshape hdrop hrf hnd hfresh hb
      refine ⟨seen, fun x hx => hx, fun x hx => List.mem_append_left _ hx, ?_⟩
      rw [leafListF_fnil, List.append_nil]
      have hlen : cs.length ≤ k := drop_len_le hdrop
      refine FlSteps.step _ _ (by simp) (by simp only [List.length_cons]; omega) ?_
      have hstep : flattenStep H ⟨⟨i, k⟩ :: rest, seen, out⟩ = ⟨rest, seen, out⟩ := by
        simp only [flattenStep, hshape, nextIdx_drop_nil hdrop]
        rw [dif_neg (by omega)]
      rw [hstep]
      exact FlSteps.refl _
    | fcons c f =>
      intro i k cs rest seen out hshape hdrop hrf hnd hfresh hb
      have hdrop' : cs.drop k = some (rid c) :: forestRoots f := hdrop
      obtain ⟨hk, hget, hdrop1⟩ := drop_cons_spec hdrop'
      have hrf' : repTree H c = true ∧ repForest H f = true := by
        simpa [repForest] using hrf
      have hidsF : idsF (EForest.fcons c f) = ids c ++ idsF f := rfl
      rw [hidsF] at hnd hfresh hb
      have hnd1 : (ids c).Nodup := (List.nodup_append.mp hnd).1
      have hnd2 : (idsF f).Nodup := (List.nodup_append.mp hnd).2.1
      have hdisj := (List.nodup_append.mp hnd).2.2
      have hrcnot : rid c ∉ seen :=
        hfresh (rid c) (List.mem_append_left _ (List.mem_cons_self _ _))
      obtain ⟨hm1, hm2, hm3⟩ := markSeen_fresh H (rid c) seen hrcnot
      have hblen : rest.length + 1 + ((ids c).length + (idsF f).length)
          < maxDepth := by
        simpa [List.length_append] using hb
      -- process the head subtree
      have hszc : tsize c < n := by
        have : fsize (EForest.fcons c f) = 1 + tsize c + fsize f := by simp [fsize]
        omega
      have hAc := (ih (tsize c) hszc).1 c (le_refl _)
      obtain ⟨seen2, h21, h22, hstepsA⟩ :=
        hAc (⟨i, k + 1⟩ :: rest) (markSeen H (rid c) seen).2 out hrf'.1 hnd1
          (by
            intro x hx hmem
            rcases List.mem_cons.mp (hm3 hmem) with hx1 | hx1
            · rw [hx1] at hx
              exact (List.nodup_cons.mp hnd1).1 hx
            · exact hfresh x
                (List.mem_append_left _ (List.mem_cons_of_mem _ hx)) hx1)
          (by
            simp only [List.length_cons]
            have hc1 : 1 ≤ (ids c).length := by
              simp [ids]
            omega)
      -- process the remaining forest
      have hszf : fsize f < n := by
        have : fsize (EForest.fcons c f) = 1 + tsize c + fsize f := by simp [fsize]
        omega
      have hFf := (ih (fsize f) hszf).2 f (le_refl _)
      obtain ⟨seen3, h31, h32, hstepsF⟩ :=
        hFf i (k + 1) cs rest seen2 (out ++ leafList H c) hshape hdrop1
          hrf'.2 hnd2
          (by
            intro x hx hmem
            rcases List.mem_append.mp (h22 hmem) with hx1 | hx1
            · rcases List.mem_cons.mp (hm3 hx1) with hx2 | hx2
              · rw [hx2] at hx
                exact (List.disjoint_left.mp hdisj) (List.mem_cons_self _ _) hx
              · exact hfresh x (List.mem_append_right _ hx) hx2
            · exact (List.disjoint_left.mp hdisj) hx1 hx)
          (by omega)
      refine ⟨seen3, fun x hx => h31 (h21 (hm2 hx)), ?_, ?_⟩
      · intro x hx
        rcases List.mem_append.mp (h32 hx) with hx1 | hx1
        · rcases List.mem_append.mp (h22 hx1) with hx2 | hx2
          · rcases List.mem_cons.mp (hm3 hx2) with hx3 | hx3
            · refine List.mem_append_right _ ?_
              rw [hidsF, hx3]
              exact List.mem_append_left _ (List.mem_cons_self _ _)
            · exact List.mem_append_left _ hx3
          · refine List.mem_append_right _ ?_
            rw [hidsF]
            exact List.mem_append_left _ hx2
        · refine List.mem_append_right _ ?_
          rw [hidsF]
          exact List.mem_append_right _ hx1
      · rw [leafListF_fcons, ← List.append_assoc]
        refine FlSteps.step _ _ (by simp)
          (by
            simp only [List.length_cons]
            omega) ?_
        have hstep : flattenStep H ⟨⟨i, k⟩ :: rest, seen, out⟩
            = ⟨⟨rid c, 0⟩ :: ⟨i, k + 1⟩ :: rest,
               (markSeen H (rid c) seen).2, out⟩ := by
          simp only [flattenStep, hshape]
          rw [show nextIdx cs k = k from nextIdx_at_cons hdrop']
          rw [dif_pos hk, hget]
          simp [hm1]
        rw [hstep]
        exact FlSteps_trans hstepsA hstepsF


/-- The node ids currently on the Flatten stack. -/
def stackIds (s : FlState) : List Nat := s.stack.map FlFrame.e

/-- Invariant of the Flatten loop on an all-registered heap: the emitted
leaves and the stacked nodes are pairwise distinct and all recorded in the
seen set. -/
def FlInv (s : FlState) : Prop :=
  (s.out ++ stackIds s).Nodup ∧ ∀ x ∈ s.out ++ stackIds s, x ∈ s.seen

theorem markSeen_true_not_seen {H : Heap} {id : Nat} {seen : List Nat}
    (hreg : H.registered id = true) (h : (markSeen H id seen).1 = true) :
    id ∉ seen := by
  intro hmem
  simp [markSeen, hreg, hmem] at h

theorem markSeen_true_snd {H : Heap} {id : Nat} {seen : List Nat}
    (hreg : H.registered id = true) (h : (markSeen H id seen).1 = true) :
    (markSeen H id seen).2 = id :: seen := by
  have hns := markSeen_true_not_seen hreg h
  simp [markSeen, hreg, hns]

theorem markSeen_false_snd {H : Heap} {id : Nat} {seen : List Nat}
    (h : (markSeen H id seen).1 = false) :
    (markSeen H id seen).2 = seen := by
  by_cases hreg : H.registered id
  · by_cases hmem : id ∈ seen
    · simp [markSeen, hreg, hmem]
    · simp [markSeen, hreg, hmem] at h
  · simp [markSeen, hreg] at h

theorem flattenStep_inv {H : Heap} (hreg : ∀ i, H.registered i = true)
    {s : FlState} (hinv : FlInv s) : FlInv (flattenStep H s) := by
  obtain ⟨stack, seen, out⟩ := s
  cases stack with
  | nil => exact hinv
  | cons fr rest =>
    have hnd : (out ++ fr.e :: rest.map FlFrame.e).Nodup := hinv.1
    have hmem : ∀ x ∈ out ++ fr.e :: rest.map FlFrame.e, x ∈ seen := hinv.2
    have hndm : (fr.e :: (out ++ rest.map FlFrame.e)).Nodup :=
      (List.nodup_middle).mp hnd
    have hnd' : (out ++ rest.map FlFrame.e).Nodup :=
      (List.nodup_cons.mp hndm).2
    have hmem' : ∀ x ∈ out ++ rest.map FlFrame.e, x ∈ seen := by
      intro x hx
      refine hmem x ?_
      rcases List.mem_append.mp hx with h | h
      · exact List.mem_append_left _ h
      · exact List.mem_append_right _ (List.mem_cons_of_mem _ h)
    have hpop : FlInv ⟨rest, seen, out⟩ := ⟨hnd', hmem'⟩
    have hemit : FlInv ⟨rest, seen, out ++ [fr.e]⟩ := by
      constructor
      · show ((out ++ [fr.e]) ++ rest.map FlFrame.e).Nodup
        rw [List.append_assoc]
        exact hnd
      · intro x hx
        refine hmem x ?_
        have hx' : x ∈ (out ++ [fr.e]) ++ rest.map FlFrame.e := hx
        rw [List.append_assoc] at hx'
        exact hx' 
    rcases hshape : H.shape fr.e with _ | u | cs
    · have hst : flattenStep H ⟨fr :: rest, seen, out⟩
          = ⟨rest, seen, out ++ [fr.e]⟩ := by
        simp [flattenStep, hshape]
      rw [hst]
      exact hemit
    · cases u with
      | none =>
        have hst : flattenStep H ⟨fr :: rest, seen, out⟩
            = ⟨rest, seen, out ++ [fr.e]⟩ := by
          simp [flattenStep, hshape]
        rw [hst]
        exact hemit
      | some u =>
        rcases hms : (markSeen H u seen).1 with _ | _
        · have hst : flattenStep H ⟨fr :: rest, seen, out⟩
              = ⟨rest, (markSeen H u seen).2, out⟩ := by
            simp [flattenStep, hshape, hms]
          rw [hst, markSeen_false_snd hms]
          exact hpop
        · have hst : flattenStep H ⟨fr :: rest, seen, out⟩
              = ⟨⟨u, fr.idx⟩ :: rest, (markSeen H u seen).2, out⟩ := by
            simp [flattenStep, hshape, hms]
          rw [hst, markSeen_true_snd (hreg u) hms]
          have hus := markSeen_true_not_seen (hreg u) hms
          constructor
          · show (out ++ u :: rest.map FlFrame.e).Nodup
            refine (List.nodup_middle).mpr (List.nodup_cons.mpr ⟨?_, hnd'⟩)
            intro hu
            exact hus (hmem' u hu)
          · intro x hx
            rcases List.mem_append.mp hx with h | h
            · exact List.mem_cons_of_mem _ (hmem' x (List.mem_append_left _ h))
            · rcases List.mem_cons.mp h with h | h
              · rw [h]
                exact List.mem_cons_self _ _
              · exact List.mem_cons_of_mem _
                  (hmem' x (List.mem_append_right _ h))
    · by_cases hj : nextIdx cs fr.idx < cs.length
      · rcases hget : cs[nextIdx cs fr.idx] with _ | child
        · have hst : flattenStep H ⟨fr :: rest, seen, out⟩
              = ⟨rest, seen, out⟩ := by
            simp [flattenStep, hshape, hj, hget]
          rw [hst]
          exact hpop
        · rcases hms : (markSeen H child seen).1 with _ | _
          · have hst : flattenStep H ⟨fr :: rest, seen, out⟩
                = ⟨⟨fr.e, nextIdx cs fr.idx + 1⟩ :: rest,
                   (markSeen H child seen).2, out⟩ := by
              simp [flattenStep, hshape, hj, hget, hms]
            rw [hst, markSeen_false_snd hms]
            exact ⟨hnd, hmem⟩
          · have hst : flattenStep H ⟨fr :: rest, seen, out⟩
                = ⟨⟨child, 0⟩ :: ⟨fr.e, nextIdx cs fr.idx + 1⟩ :: rest,
                   (markSeen H child seen).2, out⟩ := by
              simp [flattenStep, hshape, hj, hget, hms]
            rw [hst, markSeen_true_snd (hreg child) hms]
            have hcs := markSeen_true_not_seen (hreg child) hms
            constructor
            · show (out ++ child :: fr.e :: rest.map FlFrame.e).Nodup
              refine (List.nodup_middle).mpr (List.nodup_cons.mpr ⟨?_, ?_⟩)
              · intro hc
                have hc' : child ∈ out ++ fr.e :: rest.map FlFrame.e := by
                  rcases List.mem_append.mp hc with h | h
                  · exact List.mem_append_left _ h
                  · exact List.mem_append_right _ h
                exact hcs (hmem child hc')
              · exact hnd
            · intro x hx
              rcases List.mem_append.mp hx with h | h
              · exact List.mem_cons_of_mem _
                  (hmem x (List.mem_append_left _ h))
              · rcases List.mem_cons.mp h with h | h
                · rw [h]
                  exact List.mem_cons_self _ _
                · exact List.mem_cons_of_mem _
                    (hmem x (List.mem_append_right _ h))
      · have hst : flattenStep H ⟨fr :: rest, seen, out⟩
            = ⟨rest, seen, out⟩ := by
          simp [flattenStep, hshape, hj]
        rw [hst]
        exact hpop

theorem flattenRun_nodup {H : Heap} (hreg : ∀ i, H.registered i = true) :
    ∀ (f : Nat) (s : FlState) (out : List Nat), FlInv s →
      flattenRun H f s = some out → out.Nodup := by
  intro f
  induction f with
  | zero =>
    intro s out _ h
    simp [flattenRun] at h
  | succ f ih =>
    intro s out hinv h
    rw [flattenRun] at h
    by_cases hc : s.stack.length = 0 ∨ maxDepth ≤ s.stack.length
    · rw [if_pos hc] at h
      obtain rfl : s.out = out := by injection h
      exact List.Nodup.of_append_left hinv.1
    · rw [if_neg hc] at h
      exact ih _ out (flattenStep_inv hreg hinv) h

/-- C2.  On a non-nil acyclic graph built from single- and multi-cause
wrappers (a tree with distinct node ids that the heap represents, within
the depth cap), `Flatten` terminates and returns exactly the nodes with no
further expansion, in depth-first first-discovery order — the preorder id
list filtered to leaves — so its length is the number of leaf nodes and no
element has further expansion.  `Flatten(nil)` is empty (no nil entries),
and on any graph of registered nodes — cyclic or not — no node is ever
emitted twice: a node revisited via a cycle is not re-emitted as a
duplicate leaf. -/
theorem flatten_returns_leaves (H : Heap) (t : ETr)
    (hrep : repTree H t = true) (hnd : (ids t).Nodup)
    (hdepth : (ids t).length < maxDepth) :
    (∃ N, ∀ f, N ≤ f →
        flattenGo H (some (rid t)) f
          = some ((ids t).filter (fun i => noExpansion H i))) ∧
    (∀ f, flattenGo H none f = some []) ∧
    (∀ (root f : Nat) (out : List Nat), (∀ i, H.registered i = true) →
        flattenGo H (some root) f = some out → out.Nodup) := by
  refine ⟨?_, fun f => rfl, ?_⟩
  · have hA := (flatten_main H (tsize t)).1 t (le_refl _)
    have hfresh0 : ∀ x ∈ subIds t, x ∉ (markSeen H (rid t) []).2 := by
      intro x hx hmem
      have hx1 := markSeen_init_sub H (rid t) hmem
      rcases List.mem_cons.mp hx1 with h | h
      · rw [h] at hx
        exact (List.nodup_cons.mp hnd).1 hx
      · exact absurd h (List.not_mem_nil x)
    obtain ⟨seen', _, _, hsteps⟩ :=
      hA [] (markSeen H (rid t) []).2 [] hrep hnd hfresh0 (by simpa using hdepth)
    have hterm : flattenRun H 1 ⟨[], seen', [] ++ leafList H t⟩
        = some ([] ++ leafList H t) := by
      simp [flattenRun]
    obtain ⟨g, hg⟩ := flattenRun_of_steps hsteps hterm
    refine ⟨g, fun f hf => ?_⟩
    have hrun := flattenRun_mono hg f hf
    rcases hshape : H.shape (rid t) with _ | u | cs
    · cases t with
      | leafT i =>
        have : flattenGo H (some (rid (ETr.leafT i))) f = some [i] := by
          simp [flattenGo, rid] at hshape ⊢
          simp [hshape]
        rw [this, show (ids (ETr.leafT i)).filter (fun i => noExpansion H i) = [i]
          from leafList_leafT H i (Or.inl hshape)]
      | singleT i c =>
        exfalso
        have : H.shape i = .single (some (rid c)) := by
          have h := hrep
          simp [repTree] at h
          exact h.1
        rw [show rid (ETr.singleT i c) = i from rfl] at hshape
        rw [hshape] at this
        exact absurd this (by simp)
      | multiT i cs' =>
        exfalso
        have : H.shape i = .multi (forestRoots cs') := by
          have h := hrep
          simp [repTree] at h
          exact h.1
        rw [show rid (ETr.multiT i cs') = i from rfl] at hshape
        rw [hshape] at this
        exact absurd this (by simp)
    · have hgo : flattenGo H (some (rid t)) f
          = flattenRun H f ⟨[⟨rid t, 0⟩], (markSeen H (rid t) []).2, []⟩ := by
        simp [flattenGo, hshape]
      rw [hgo, hrun]
      rfl
    · have hgo : flattenGo H (some (rid t)) f
          = flattenRun H f ⟨[⟨rid t, 0⟩], (markSeen H (rid t) []).2, []⟩ := by
        simp [flattenGo, hshape]
      rw [hgo, hrun]
      rfl
  · intro root f out hregAll hrun
    have hseen0 : (markSeen H root []).2 = [root] := by
      simp [markSeen, hregAll root]
    have hinv : FlInv ⟨[⟨root, 0⟩], (markSeen H root []).2, []⟩ := by
      constructor
      · show ([] ++ [root]).Nodup
        simp
      · intro x hx
        rw [hseen0]
        simpa [stackIds] using hx
    rcases hshape : H.shape root with _ | u | cs
    · have : some [root] = some out := by
        rw [← hrun]
        simp [flattenGo, hshape]
      obtain rfl : [root] = out := by injection this
      simp
    · have : flattenRun H f ⟨[⟨root, 0⟩], (markSeen H root []).2, []⟩
          = some out := by
        rw [← hrun]
        simp [flattenGo, hshape]
      exact flattenRun_nodup hregAll f _ out hinv this
    · have : flattenRun H f ⟨[⟨root, 0⟩], (markSeen H root []).2, []⟩
          = some out := by
        rw [← hrun]
        simp [flattenGo, hshape]
      exact flattenRun_nodup hregAll f _ out hinv this


mutual
/-- The specification-side pre-order visit trace of Walk on a tree: the
visitor sees a node before its children, children left-to-right, and a
`false` return stops the traversal immediately.  Returns the trace and
whether traversal is still live. -/
def preTr (visit : Nat → Bool) : ETr → List Nat × Bool
  | .leafT i => ([i], visit i)
  | .singleT i c =>
    if visit i then
      let r := preTr visit c
      (i :: r.1, r.2)
    else ([i], false)
  | .multiT i cs =>
    if visit i then
      let r := preForest visit cs
      (i :: r.1, r.2)
    else ([i], false)
/-- Pre-order visit trace over a forest of pending siblings. -/
def preForest (visit : Nat → Bool) : EForest → List Nat × Bool
  | .fnil => ([], true)
  | .fcons t f =>
    let r := preTr visit t
    if r.2 then
      let r2 := preForest visit f
      (r.1 ++ r2.1, r2.2)
    else (r.1, false)
end

/-- The non-root ids of a forest. -/
def forestSubIds : EForest → List Nat
  | .fnil => []
  | .fcons t f => subIds t ++ forestSubIds f

theorem forestRoots_eq_map : ∀ rem : EForest,
    forestRoots rem = (forestRids rem).map some
  | .fnil => rfl
  | .fcons c f => by
    show some (rid c) :: forestRoots f = some (rid c) :: (forestRids f).map some
    rw [forestRoots_eq_map f]

theorem forestRids_sublist : ∀ rem : EForest,
    List.Sublist (forestRids rem) (idsF rem)
  | .fnil => List.Sublist.refl _
  | .fcons c f => by
    show List.Sublist (rid c :: forestRids f) ((rid c :: subIds c) ++ idsF f)
    refine List.Sublist.cons₂ _ ?_
    exact List.Sublist.trans (forestRids_sublist f) (List.sublist_append_right _ _)

theorem forestSubIds_sub : ∀ rem : EForest, forestSubIds rem ⊆ idsF rem
  | .fnil => fun x hx => absurd hx (List.not_mem_nil x)
  | .fcons c f => by
    intro x hx
    rcases List.mem_append.mp hx with h | h
    · show x ∈ (rid c :: subIds c) ++ idsF f
      exact List.mem_append_left _ (List.mem_cons_of_mem _ h)
    · show x ∈ (rid c :: subIds c) ++ idsF f
      exact List.mem_append_right _ (forestSubIds_sub f h)

theorem forest_root_not_sub : ∀ rem : EForest, (idsF rem).Nodup →
    ∀ x ∈ forestSubIds rem, x ∉ forestRids rem
  | .fnil => fun _ x hx => absurd hx (List.not_mem_nil x)
  | .fcons c f => by
    intro hnd x hx
    have hnd' : (ids c ++ idsF f).Nodup := hnd
    have hnd1 : (ids c).Nodup := (List.nodup_append.mp hnd').1
    have hnd2 : (idsF f).Nodup := (List.nodup_append.mp hnd').2.1
    have hdisj := (List.nodup_append.mp hnd').2.2
    intro hmem
    rcases List.mem_cons.mp hmem with h | h
    · rcases List.mem_append.mp hx with hx1 | hx1
      · rw [h] at hx1
        exact (List.nodup_cons.mp hnd1).1 hx1
      · rw [h] at hx1
        exact (List.disjoint_left.mp hdisj) (List.mem_cons_self _ _)
          (forestSubIds_sub f hx1)
    · rcases List.mem_append.mp hx with hx1 | hx1
      · exact (List.disjoint_left.mp hdisj)
          (List.mem_cons_of_mem _ hx1)
          (List.Sublist.subset (forestRids_sublist f) h)
      · exact forest_root_not_sub f hnd2 x hx1 h

/-- Guarded reflexive-transitive closure of the Walk loop body: each step
requires the loop condition and a true visit. -/
inductive WkSteps (H : Heap) (visit : Nat → Bool) :
    List Nat × List Nat × List Nat → List Nat × List Nat × List Nat → Prop where
  | refl (s : List Nat × List Nat × List Nat) : WkSteps H visit s s
  | step (cur : Nat) (rest seen trace : List Nat)
      (s'' : List Nat × List Nat × List Nat)
      (hlt : (cur :: rest).length < maxDepth) (hv : visit cur = true)
      (h : WkSteps H visit (walkExpand H cur rest seen trace) s'') :
      WkSteps H visit (cur :: rest, seen, trace) s''

theorem WkSteps_trans {H : Heap} {visit : Nat → Bool}
    {s1 s2 s3 : List Nat × List Nat × List Nat}
    (h12 : WkSteps H visit s1 s2) (h23 : WkSteps H visit s2 s3) :
    WkSteps H visit s1 s3 := by
  induction h12 with
  | refl _ => exact h23
  | step cur rest seen trace s'' hlt hv _ ih =>
    exact WkSteps.step cur rest seen trace s3 hlt hv (ih h23)

theorem walkRun_zero (H : Heap) (visit : Nat → Bool)
    (stack seen trace : List Nat) :
    walkRun H visit 0 stack seen trace = none := rfl

theorem walkRun_succ_nil (H : Heap) (visit : Nat → Bool) (f : Nat)
    (seen trace : List Nat) :
    walkRun H visit (f + 1) [] seen trace = some trace := rfl

theorem walkRun_succ_cons (H : Heap) (visit : Nat → Bool) (f : Nat)
    (cur : Nat) (rest seen trace : List Nat) :
    walkRun H visit (f + 1) (cur :: rest) seen trace
      = if (cur :: rest).length = 0 ∨ maxDepth ≤ (cur :: rest).length then
          some trace
        else if visit cur then
          walkRun H visit f (walkExpand H cur rest seen trace).1
            (walkExpand H cur rest seen trace).2.1
            (walkExpand H cur rest seen trace).2.2
        else some (trace ++ [cur]) := rfl

theorem walkRun_mono {H : Heap} {visit : Nat → Bool} {f : Nat}
    {stack seen trace out : List Nat}
    (h : walkRun H visit f stack seen trace = some out) :
    ∀ g, f ≤ g → walkRun H visit g stack seen trace = some out := by
  induction f generalizing stack seen trace with
  | zero => rw [walkRun_zero] at h; exact absurd h (by simp)
  | succ f ih =>
    intro g hg
    obtain ⟨g', rfl⟩ : ∃ g', g = g' + 1 := ⟨g - 1, by omega⟩
    cases stack with
    | nil =>
      rw [walkRun_succ_nil] at h
      rw [walkRun_succ_nil]
      exact h
    | cons cur rest =>
      rw [walkRun_succ_cons] at h
      rw [walkRun_succ_cons]
      by_cases hc : (cur :: rest).length = 0 ∨ maxDepth ≤ (cur :: rest).length
      · rw [if_pos hc] at h ⊢
        exact h
      · rw [if_neg hc] at h ⊢
        by_cases hv : visit cur = true
        · rw [if_pos hv] at h ⊢
          exact ih h g' (by omega)
        · rw [if_neg hv] at h ⊢
          exact h

theorem walkRun_of_steps {H : Heap} {visit : Nat → Bool}
    {s s' : List Nat × List Nat × List Nat}
    (h : WkSteps H visit s s') {f : Nat} {out : List Nat}
    (hrun : walkRun H visit f s'.1 s'.2.1 s'.2.2 = some out) :
    ∃ g, walkRun H visit g s.1 s.2.1 s.2.2 = some out := by
  induction h with
  | refl s => exact ⟨f, hrun⟩
  | step cur rest seen trace s'' hlt hv _ ih =>
    obtain ⟨g, hg⟩ := ih hrun
    refine ⟨g + 1, ?_⟩
    show walkRun H visit (g + 1) (cur :: rest) seen trace = some out
    rw [walkRun_succ_cons,
      if_neg (by simp only [not_or]; exact ⟨by simp, by omega⟩)]
    rw [if_pos hv]
    exact hg

theorem walkRun_stop {H : Heap} {visit : Nat → Bool} {cur : Nat}
    {rest seen trace : List Nat}
    (hlt : (cur :: rest).length < maxDepth) (hv : visit cur = false) :
    ∀ f, 1 ≤ f →
      walkRun H visit f (cur :: rest) seen trace = some (trace ++ [cur]) := by
  intro f hf
  obtain ⟨g, rfl⟩ : ∃ g, f = g + 1 := ⟨f - 1, by omega⟩
  rw [walkRun_succ_cons,
    if_neg (by simp only [not_or]; exact ⟨by simp, by omega⟩)]
  rw [if_neg (by simp [hv])]

theorem pushKids_spec (H : Heap) : ∀ (roots stack seen : List Nat),
    roots.Nodup → (∀ x ∈ roots, x ∉ seen) →
    (pushKids H (roots.map some) stack seen).1 = roots ++ stack ∧
    seen ⊆ (pushKids H (roots.map some) stack seen).2 ∧
    (pushKids H (roots.map some) stack seen).2 ⊆ roots ++ seen := by
  intro roots
  induction roots with
  | nil =>
    intro stack seen _ _
    exact ⟨rfl, fun x hx => hx, fun x hx => hx⟩
  | cons r rs ih =>
    intro stack seen hnd hfresh
    obtain ⟨h1, h2, h3⟩ := ih stack seen (List.nodup_cons.mp hnd).2
      (fun x hx => hfresh x (List.mem_cons_of_mem _ hx))
    have hrns : r ∉ (pushKids H (rs.map some) stack seen).2 := by
      intro hmem
      rcases List.mem_append.mp (h3 hmem) with h | h
      · exact (List.nodup_cons.mp hnd).1 h
      · exact hfresh r (List.mem_cons_self _ _) h
    obtain ⟨hm1, hm2, hm3⟩ := markSeen_fresh H r _ hrns
    have hred : pushKids H ((r :: rs).map some) stack seen
        = (r :: (pushKids H (rs.map some) stack seen).1,
           (markSeen H r (pushKids H (rs.map some) stack seen).2).2) := by
      show pushKids H (some r :: rs.map some) stack seen = _
      simp only [pushKids]
      rw [if_pos hm1]
    rw [hred]
    refine ⟨by rw [h1]; rfl, ?_, ?_⟩
    · exact fun x hx => hm2 (h2 hx)
    · intro x hx
      rcases List.mem_cons.mp (hm3 hx) with h | h
      · rw [h]
        exact List.mem_cons_self _ _
      · rcases List.mem_append.mp (h3 h) with h' | h'
        · exact List.mem_cons_of_mem _ (List.mem_append_left _ h')
        · exact List.mem_append_right _ h'


/-- Processing statement for one subtree on top of the Walk stack. -/
def WkA (H : Heap) (visit : Nat → Bool) (t : ETr) : Prop :=
  ∀ (rest seen trace : List Nat),
    repTree H t = true → (ids t).Nodup →
    (∀ x ∈ subIds t, x ∉ seen) →
    rest.length + (ids t).length < maxDepth →
    ((preTr visit t).2 = true →
      ∃ seen', seen ⊆ seen' ∧ seen' ⊆ seen ++ ids t ∧
        WkSteps H visit (rid t :: rest, seen, trace)
          (rest, seen', trace ++ (preTr visit t).1)) ∧
    ((preTr visit t).2 = false →
      ∃ N, ∀ f, N ≤ f →
        walkRun H visit f (rid t :: rest) seen trace
          = some (trace ++ (preTr visit t).1))

/-- Processing statement for a forest of pending siblings whose roots are
already pushed (and marked) on the Walk stack. -/
def WkF (H : Heap) (visit : Nat → Bool) (rem : EForest) : Prop :=
  ∀ (rest seen trace : List Nat),
    repForest H rem = true → (idsF rem).Nodup →
    (∀ x ∈ forestSubIds rem, x ∉ seen) →
    rest.length + (idsF rem).length < maxDepth →
    ((preForest visit rem).2 = true →
      ∃ seen', seen ⊆ seen' ∧ seen' ⊆ seen ++ idsF rem ∧
        WkSteps H visit (forestRids rem ++ rest, seen, trace)
          (rest, seen', trace ++ (preForest visit rem).1)) ∧
    ((preForest visit rem).2 = false →
      ∃ N, ∀ f, N ≤ f →
        walkRun H visit f (forestRids rem ++ rest) seen trace
          = some (trace ++ (preForest visit rem).1))

theorem walk_main (H : Heap) (visit : Nat → Bool) : ∀ n : Nat,
    (∀ t : ETr, tsize t ≤ n → WkA H visit t) ∧
    (∀ rem : EForest, fsize rem ≤ n → WkF H visit rem) := by
  intro n
  induction n using Nat.strong_induction_on with
  | _ n ih =>
  constructor
  · intro t hsz
    cases t with
    | leafT i =>
      intro rest seen trace hrep hnd hfresh hb
      have hs : H.shape i = .leaf ∨ H.shape i = .single none := by
        simpa [repTree] using hrep
      have hids1 : (ids (ETr.leafT i)).length = 1 := rfl
      have hlt : (i :: rest).length < maxDepth := by
        simp only [List.length_cons]
        omega
      constructor
      · intro hflag
        have hv : visit i = true := hflag
        refine ⟨seen, fun x hx => hx, fun x hx => List.mem_append_left _ hx, ?_⟩
        refine WkSteps.step i rest seen trace _ hlt hv ?_
        have hexp : walkExpand H i rest seen trace = (rest, seen, trace ++ [i]) := by
          rcases hs with h | h <;> simp [walkExpand, h]
        rw [hexp]
        exact WkSteps.refl _
      · intro hflag
        have hv : visit i = false := hflag
        exact ⟨1, fun f hf => walkRun_stop hlt hv f hf⟩
    | singleT i c =>
      intro rest seen trace hrep hnd hfresh hb
      have hrep' : H.shape i = .single (some (rid c)) ∧ repTree H c = true := by
        simpa [repTree] using hrep
      obtain ⟨hs, hrc⟩ := hrep'
      have hndc : (i :: ids c).Nodup := hnd
      have hnd2 : (ids c).Nodup := (List.nodup_cons.mp hndc).2
      have hfr : ∀ x ∈ ids c, x ∉ seen := hfresh
      have hids1 : (ids (ETr.singleT i c)).length = 1 + (ids c).length := by
        simp only [ids, subIds, List.length_cons]
        omega
      have hlt : (i :: rest).length < maxDepth := by
        simp only [List.length_cons]
        omega
      by_cases hv : visit i = true
      · have hrcns : rid c ∉ seen := hfr _ (List.mem_cons_self _ _)
        obtain ⟨hm1, hm2, hm3⟩ := markSeen_fresh H (rid c) seen hrcns
        have hexp : walkExpand H i rest seen trace
            = (rid c :: rest, (markSeen H (rid c) seen).2, trace ++ [i]) := by
          simp [walkExpand, hs, hm1]
        have hszc : tsize c < n := by
          have : tsize (ETr.singleT i c) = 1 + tsize c := by simp [tsize]
          omega
        have hWc := (ih (tsize c) hszc).1 c (le_refl _)
        have hres := hWc rest (markSeen H (rid c) seen).2 (trace ++ [i]) hrc hnd2
          (by
            intro x hx hmem
            rcases List.mem_cons.mp (hm3 hmem) with h | h
            · rw [h] at hx
              exact (List.nodup_cons.mp hnd2).1 hx
            · exact hfr x (List.mem_cons_of_mem _ hx) h)
          (by omega)
        have hpre1 : (preTr visit (ETr.singleT i c)).1
            = i :: (preTr visit c).1 := by
          simp [preTr, hv]
        have hpre2 : (preTr visit (ETr.singleT i c)).2 = (preTr visit c).2 := by
          simp [preTr, hv]
        have hassoc : (trace ++ [i]) ++ (preTr visit c).1
            = trace ++ i :: (preTr visit c).1 := by
          rw [List.append_assoc]
          rfl
        constructor
        · intro hflag
          obtain ⟨seen2, h21, h22, hsteps⟩ := hres.1 (by rw [← hpre2]; exact hflag)
          refine ⟨seen2, fun x hx => h21 (hm2 hx), ?_, ?_⟩
          · intro x hx
            rcases List.mem_append.mp (h22 hx) with hx1 | hx1
            · rcases List.mem_cons.mp (hm3 hx1) with h | h
              · refine List.mem_append_right _ ?_
                rw [h]
                exact List.mem_cons_of_mem _ (List.mem_cons_self _ _)
              · exact List.mem_append_left _ h
            · exact List.mem_append_right _ (List.mem_cons_of_mem _ hx1)
          · rw [hpre1, ← hassoc]
            refine WkSteps.step i rest seen trace _ hlt hv ?_
            rw [hexp]
            exact hsteps
        · intro hflag
          obtain ⟨N, hN⟩ := hres.2 (by rw [← hpre2]; exact hflag)
          have hstep1 : WkSteps H visit (i :: rest, seen, trace)
              (rid c :: rest, (markSeen H (rid c) seen).2, trace ++ [i]) := by
            refine WkSteps.step i rest seen trace _ hlt hv ?_
            rw [hexp]
            exact WkSteps.refl _
          obtain ⟨g, hg⟩ := walkRun_of_steps hstep1 (hN N (le_refl _))
          refine ⟨g, fun f hf => ?_⟩
          have hru := walkRun_mono hg f hf
          rw [hpre1, ← hassoc]
          exact hru
      · have hvf : visit i = false := by
          simpa using hv
        have hpre : preTr visit (ETr.singleT i c) = ([i], false) := by
          simp [preTr, hvf]
        constructor
        · intro hflag
          rw [hpre] at hflag
          exact absurd hflag (by simp)
        · intro _
          rw [hpre]
          exact ⟨1, fun f hf => walkRun_stop hlt hvf f hf⟩
    | multiT i cs =>
      intro rest seen trace hrep hnd hfresh hb
      have hrep' : H.shape i = .multi (forestRoots cs) ∧ repForest H cs = true := by
        simpa [repTree] using hrep
      obtain ⟨hs, hrf⟩ := hrep'
      have hndf : (idsF cs).Nodup := (List.nodup_cons.mp hnd).2
      have hids1 : (ids (ETr.multiT i cs)).length = 1 + (idsF cs).length := by
        simp only [ids, subIds, List.length_cons]
        omega
      have hlt : (i :: rest).length < maxDepth := by
        simp only [List.length_cons]
        omega
      by_cases hv : visit i = true
      · have hrootsnd : (forestRids cs).Nodup :=
          List.Nodup.sublist (forestRids_sublist cs) hndf
        have hrootsfr : ∀ x ∈ forestRids cs, x ∉ seen := fun x hx =>
          hfresh x (List.Sublist.subset (forestRids_sublist cs) hx)
        obtain ⟨hp1, hp2, hp3⟩ :=
          pushKids_spec H (forestRids cs) rest seen hrootsnd hrootsfr
        have hexp : walkExpand H i rest seen trace
            = ((pushKids H ((forestRids cs).map some) rest seen).1,
               (pushKids H ((forestRids cs).map some) rest seen).2,
               trace ++ [i]) := by
          simp [walkExpand, hs, forestRoots_eq_map cs]
        have hszf : fsize cs < n := by
          have : tsize (ETr.multiT i cs) = 1 + fsize cs := by simp [tsize]
          omega
        have hWf := (ih (fsize cs) hszf).2 cs (le_refl _)
        have hres := hWf rest (pushKids H ((forestRids cs).map some) rest seen).2
          (trace ++ [i]) hrf hndf
          (by
            intro x hx hmem
            rcases List.mem_append.mp (hp3 hmem) with h | h
            · exact forest_root_not_sub cs hndf x hx h
            · exact hfresh x (forestSubIds_sub cs hx) h)
          (by omega)
        have hpre1 : (preTr visit (ETr.multiT i cs)).1
            = i :: (preForest visit cs).1 := by
          simp [preTr, hv]
        have hpre2 : (preTr visit (ETr.multiT i cs)).2
            = (preForest visit cs).2 := by
          simp [preTr, hv]
        have hassoc : (trace ++ [i]) ++ (preForest visit cs).1
            = trace ++ i :: (preForest visit cs).1 := by
          rw [List.append_assoc]
          rfl
        constructor
        · intro hflag
          obtain ⟨seen2, h21, h22, hsteps⟩ := hres.1 (by rw [← hpre2]; exact hflag)
          refine ⟨seen2, fun x hx => h21 (hp2 hx), ?_, ?_⟩
          · intro x hx
            rcases List.mem_append.mp (h22 hx) with hx1 | hx1
            · rcases List.mem_append.mp (hp3 hx1) with h | h
              · refine List.mem_append_right _ ?_
                exact List.mem_cons_of_mem _
                  (List.Sublist.subset (forestRids_sublist cs) h)
              · exact List.mem_append_left _ h
            · exact List.mem_append_right _ (List.mem_cons_of_mem _ hx1)
          · rw [hpre1, ← hassoc]
            refine WkSteps.step i rest seen trace _ hlt hv ?_
            rw [hexp, hp1]
            exact hsteps
        · intro hflag
          obtain ⟨N, hN⟩ := hres.2 (by rw [← hpre2]; exact hflag)
          have hstep1 : WkSteps H visit (i :: rest, seen, trace)
              (forestRids cs ++ rest,
               (pushKids H ((forestRids cs).map some) rest seen).2,
               trace ++ [i]) := by
            refine WkSteps.step i rest seen trace _ hlt hv ?_
            rw [hexp, hp1]
            exact WkSteps.refl _
          obtain ⟨g, hg⟩ := walkRun_of_steps hstep1 (hN N (le_refl _))
          refine ⟨g, fun f hf => ?_⟩
          have hru := walkRun_mono hg f hf
          rw [hpre1, ← hassoc]
          exact hru
      · have hvf : visit i = false := by
          simpa using hv
        have hpre : preTr visit (ETr.multiT i cs) = ([i], false) := by
          simp [preTr, hvf]
        constructor
        · intro hflag
          rw [hpre] at hflag
          exact absurd hflag (by simp)
        · intro _
          rw [hpre]
          exact ⟨1, fun f hf => walkRun_stop hlt hvf f hf⟩
  · intro rem hsz
    cases rem with
    | fnil =>
      intro rest seen trace _ _ _ _
      constructor
      · intro _
        refine ⟨seen, fun x hx => hx, fun x hx => List.mem_append_left _ hx, ?_⟩
        have htr : trace ++ (preForest visit EForest.fnil).1 = trace := by
          simp [preForest]
        rw [htr]
        exact WkSteps.refl _
      · intro hflag
        exact absurd hflag (by simp [preForest])
    | fcons c f =>
      intro rest seen trace hrf hnd hfresh hb
      have hrf' : repTree H c = true ∧ repForest H f = true := by
        simpa [repForest] using hrf
      have hnd' : (ids c ++ idsF f).Nodup := hnd
      have hnd1 : (ids c).Nodup := (List.nodup_append.mp hnd').1
      have hnd2 : (idsF f).Nodup := (List.nodup_append.mp hnd').2.1
      have hdisj := (List.nodup_append.mp hnd').2.2
      have hlenF : (idsF (EForest.fcons c f)).length
          = (ids c).length + (idsF f).length := by
        show (ids c ++ idsF f).length = _
        rw [List.length_append]
      have hlenrids : (forestRids f).length ≤ (idsF f).length :=
        List.Sublist.length_le (forestRids_sublist f)
      have hszc : tsize c < n := by
        have : fsize (EForest.fcons c f) = 1 + tsize c + fsize f := by simp [fsize]
        omega
      have hWc := (ih (tsize c) hszc).1 c (le_refl _)
      have hresc := hWc (forestRids f ++ rest) seen trace hrf'.1 hnd1
        (fun x hx => hfresh x (List.mem_append_left _ hx))
        (by
          rw [hlenF] at hb
          rw [List.length_append]
          omega)
      rcases hflagc : (preTr visit c).2 with _ | _
      · have hpre : preForest visit (EForest.fcons c f)
            = ((preTr visit c).1, false) := by
          simp [preForest, hflagc]
        constructor
        · intro hflag
          rw [hpre] at hflag
          exact absurd hflag (by simp)
        · intro _
          obtain ⟨N, hN⟩ := hresc.2 hflagc
          rw [hpre]
          exact ⟨N, hN⟩
      · obtain ⟨seen2, h21, h22, hstepsc⟩ := hresc.1 hflagc
        have hszf : fsize f < n := by
          have : fsize (EForest.fcons c f) = 1 + tsize c + fsize f := by simp [fsize]
          omega
        have hWff := (ih (fsize f) hszf).2 f (le_refl _)
        have hresf := hWff rest seen2 (trace ++ (preTr visit c).1) hrf'.2 hnd2
          (by
            intro x hx hmem
            rcases List.mem_append.mp (h22 hmem) with h | h
            · exact hfresh x (List.mem_append_right _ hx) h
            · exact (List.disjoint_left.mp hdisj h) (forestSubIds_sub f hx))
          (by
            rw [hlenF] at hb
            omega)
        have hpre1 : (preForest visit (EForest.fcons c f)).1
            = (preTr visit c).1 ++ (preForest visit f).1 := by
          simp [preForest, hflagc]
        have hpre2 : (preForest visit (EForest.fcons c f)).2
            = (preForest visit f).2 := by
          simp [preForest, hflagc]
        constructor
        · intro hflag
          obtain ⟨seen3, h31, h32, hstepsf⟩ := hresf.1 (by rw [← hpre2]; exact hflag)
          refine ⟨seen3, fun x hx => h31 (h21 hx), ?_, ?_⟩
          · intro x hx
            rcases List.mem_append.mp (h32 hx) with hx1 | hx1
            · rcases List.mem_append.mp (h22 hx1) with hx2 | hx2
              · exact List.mem_append_left _ hx2
              · refine List.mem_append_right _ ?_
                show x ∈ ids c ++ idsF f
                exact List.mem_append_left _ hx2
            · refine List.mem_append_right _ ?_
              show x ∈ ids c ++ idsF f
              exact List.mem_append_right _ hx1
          · rw [hpre1, ← List.append_assoc]
            exact WkSteps_trans hstepsc hstepsf
        · intro hflag
          obtain ⟨N, hN⟩ := hresf.2 (by rw [← hpre2]; exact hflag)
          obtain ⟨g, hg⟩ := walkRun_of_steps hstepsc (hN N (le_refl _))
          refine ⟨g, fun fu hfu => ?_⟩
          have hru := walkRun_mono hg fu hfu
          rw [hpre1, ← List.append_assoc]
          exact hru


/-- Entry composition of `walk_main`: on a represented tree, `Walk`
terminates and its trace is the (possibly truncated) pre-order trace. -/
theorem walk_trace_core (H : Heap) (visit : Nat → Bool) (t : ETr)
    (hrep : repTree H t = true) (hnd : (ids t).Nodup)
    (hdepth : (ids t).length < maxDepth) :
    ∃ N, ∀ f, N ≤ f →
      walkGo H visit (some (rid t)) f = some (preTr visit t).1 := by
  have hW := (walk_main H visit (tsize t)).1 t (le_refl _)
  have hfresh0 : ∀ x ∈ subIds t, x ∉ (markSeen H (rid t) []).2 := by
    intro x hx hmem
    have hx1 := markSeen_init_sub H (rid t) hmem
    rcases List.mem_cons.mp hx1 with h | h
    · rw [h] at hx
      exact (List.nodup_cons.mp hnd).1 hx
    · exact absurd h (List.not_mem_nil x)
  have hres := hW [] (markSeen H (rid t) []).2 [] hrep hnd hfresh0
    (by simpa using hdepth)
  rcases hflag : (preTr visit t).2 with _ | _
  · obtain ⟨N, hN⟩ := hres.2 hflag
    exact ⟨N, fun f hf => hN f hf⟩
  · obtain ⟨seen', _, _, hsteps⟩ := hres.1 hflag
    have hterm : walkRun H visit 1 [] seen' ([] ++ (preTr visit t).1)
        = some ([] ++ (preTr visit t).1) := walkRun_succ_nil H visit 0 seen' _
    obtain ⟨g, hg⟩ := walkRun_of_steps hsteps hterm
    exact ⟨g, fun f hf => walkRun_mono hg f hf⟩

mutual
theorem preTr_spec (visit : Nat → Bool) : ∀ t : ETr,
    ((preTr visit t).1 ⊆ ids t) ∧
    ((preTr visit t).2 = true →
      (preTr visit t).1 = ids t ∧ ∀ x ∈ ids t, visit x = true) ∧
    ((preTr visit t).2 = false → ∃ x ∈ (preTr visit t).1, visit x = false)
  | .leafT i => by
    refine ⟨fun x hx => hx, fun hv => ⟨rfl, ?_⟩, fun hv => ⟨i, List.mem_cons_self _ _, hv⟩⟩
    intro x hx
    rcases List.mem_cons.mp hx with h | h
    · rw [h]
      exact hv
    · exact absurd h (List.not_mem_nil x)
  | .singleT i c => by
    by_cases hv : visit i = true
    · have hr := preTr_spec visit c
      have hpre : preTr visit (ETr.singleT i c)
          = (i :: (preTr visit c).1, (preTr visit c).2) := by
        simp [preTr, hv]
      rw [hpre]
      refine ⟨?_, ?_, ?_⟩
      · intro x hx
        rcases List.mem_cons.mp hx with h | h
        · rw [h]
          exact List.mem_cons_self _ _
        · exact List.mem_cons_of_mem _ (hr.1 h)
      · intro hflag
        obtain ⟨he, hall⟩ := hr.2.1 hflag
        constructor
        · show i :: (preTr visit c).1 = i :: ids c
          rw [he]
        · intro x hx
          rcases List.mem_cons.mp hx with h | h
          · rw [h]
            exact hv
          · exact hall x h
      · intro hflag
        obtain ⟨x, hx1, hx2⟩ := hr.2.2 hflag
        exact ⟨x, List.mem_cons_of_mem _ hx1, hx2⟩
    · have hvf : visit i = false := by simpa using hv
      have hpre : preTr visit (ETr.singleT i c) = ([i], false) := by
        simp [preTr, hvf]
      rw [hpre]
      refine ⟨?_, ?_, ?_⟩
      · intro x hx
        rcases List.mem_cons.mp hx with h | h
        · rw [h]
          exact List.mem_cons_self _ _
        · exact absurd h (List.not_mem_nil x)
      · intro hflag
        exact absurd hflag (by simp)
      · intro _
        exact ⟨i, List.mem_cons_self _ _, hvf⟩
  | .multiT i cs => by
    by_cases hv : visit i = true
    · have hr := preForest_spec visit cs
      have hpre : preTr visit (ETr.multiT i cs)
          = (i :: (preForest visit cs).1, (preForest visit cs).2) := by
        simp [preTr, hv]
      rw [hpre]
      refine ⟨?_, ?_, ?_⟩
      · intro x hx
        rcases List.mem_cons.mp hx with h | h
        · rw [h]
          exact List.mem_cons_self _ _
        · exact List.mem_cons_of_mem _ (hr.1 h)
      · intro hflag
        obtain ⟨he, hall⟩ := hr.2.1 hflag
        constructor
        · show i :: (preForest visit cs).1 = i :: idsF cs
          rw [he]
        · intro x hx
          rcases List.mem_cons.mp hx with h | h
          · rw [h]
            exact hv
          · exact hall x h
      · intro hflag
        obtain ⟨x, hx1, hx2⟩ := hr.2.2 hflag
        exact ⟨x, List.mem_cons_of_mem _ hx1, hx2⟩
    · have hvf : visit i = false := by simpa using hv
      have hpre : preTr visit (ETr.multiT i cs) = ([i], false) := by
        simp [preTr, hvf]
      rw [hpre]
      refine ⟨?_, ?_, ?_⟩
      · intro x hx
        rcases List.mem_cons.mp hx with h | h
        · rw [h]
          exact List.mem_cons_self _ _
        · exact absurd h (List.not_mem_nil x)
      · intro hflag
        exact absurd hflag (by simp)
      · intro _
        exact ⟨i, List.mem_cons_self _ _, hvf⟩
theorem preForest_spec (visit : Nat → Bool) : ∀ rem : EForest,
    ((preForest visit rem).1 ⊆ idsF rem) ∧
    ((preForest visit rem).2 = true →
      (preForest visit rem).1 = idsF rem ∧ ∀ x ∈ idsF rem, visit x = true) ∧
    ((preForest visit rem).2 = false →
      ∃ x ∈ (preForest visit rem).1, visit x = false)
  | .fnil => by
    refine ⟨fun x hx => absurd hx (List.not_mem_nil x), fun _ => ⟨rfl, ?_⟩, ?_⟩
    · intro x hx
      exact absurd hx (List.not_mem_nil x)
    · intro hflag
      exact absurd hflag (by simp [preForest])
  | .fcons c f => by
    have hrc := preTr_spec visit c
    rcases hflagc : (preTr visit c).2 with _ | _
    · have hpre : preForest visit (EForest.fcons c f)
          = ((preTr visit c).1, false) := by
        simp [preForest, hflagc]
      rw [hpre]
      refine ⟨?_, ?_, ?_⟩
      · intro x hx
        show x ∈ ids c ++ idsF f
        exact List.mem_append_left _ (hrc.1 hx)
      · intro hflag
        exact absurd hflag (by simp)
      · intro _
        exact hrc.2.2 hflagc
    · have hrf := preForest_spec visit f
      have hpre : preForest visit (EForest.fcons c f)
          = ((preTr visit c).1 ++ (preForest visit f).1,
             (preForest visit f).2) := by
        simp [preForest, hflagc]
      rw [hpre]
      refine ⟨?_, ?_, ?_⟩
      · intro x hx
        show x ∈ ids c ++ idsF f
        rcases List.mem_append.mp hx with h | h
        · exact List.mem_append_left _ (hrc.1 h)
        · exact List.mem_append_right _ (hrf.1 h)
      · intro hflag
        obtain ⟨he, hall⟩ := hrf.2.1 hflag
        obtain ⟨hec, hallc⟩ := hrc.2.1 hflagc
        constructor
        · show (preTr visit c).1 ++ (preForest visit f).1 = ids c ++ idsF f
          rw [he, hec]
        · intro x hx
          rcases List.mem_append.mp hx with h | h
          · exact hallc x h
          · exact hall x h
      · intro hflag
        obtain ⟨x, hx1, hx2⟩ := hrf.2.2 hflag
        exact ⟨x, List.mem_append_right _ hx1, hx2⟩
end

/-- The heap of `Join(Unavailable("db"), TooManyRequests("api"))`: a
`multi` container over two failure nodes (each a `single` node with a nil
cause) carrying codes `unavailable` and `too_many_requests`; the container
itself has no `CodeVal`. -/
def joinEx : Heap :=
  ⟨fun i => if i = 0 then .multi [some 1, some 2] else .single none,
   fun _ => true,
   fun i => if i = 1 then some "unavailable"
            else if i = 2 then some "too_many_requests" else none⟩


/-- C3.  On a represented tree within the depth cap, `Walk` terminates and
its visit trace is exactly the pre-order trace `preTr`: each node is
visited before its children are expanded, children of a multi node are
visited left-to-right in their original order, and a `false` return stops
the traversal immediately (by the defining equations of `preTr`); when the
visitor never returns false the trace is the full pre-order id list; and
`Walk(nil, visit)` invokes the visitor zero times. -/
theorem walk_preorder_early_stop (H : Heap) (visit : Nat → Bool) (t : ETr)
    (hrep : repTree H t = true) (hnd : (ids t).Nodup)
    (hdepth : (ids t).length < maxDepth) :
    (∃ N, ∀ f, N ≤ f →
      walkGo H visit (some (rid t)) f = some (preTr visit t).1) ∧
    ((preTr visit t).2 = true → (preTr visit t).1 = ids t) ∧
    (∀ f, walkGo H visit none f = some []) :=
  ⟨walk_trace_core H visit t hrep hnd hdepth,
   fun hflag => ((preTr_spec visit t).2.1 hflag).1,
   fun _ => rfl⟩

/-- C9.  `HasCode(err, code)` is true iff some node reachable in the
unwrap graph reports that code: on a represented tree it computes exactly
`(ids t).any (code match)`, scanning all branches rather than stopping at
the first node with a different code; `HasCode(nil, code)` is false; and
on the join of an unavailable error and a too-many-requests error, the
query for `"timeout"` yields false. -/
theorem hascode_scans_all_branches (H : Heap) (t : ETr) (c : String)
    (hrep : repTree H t = true) (hnd : (ids t).Nodup)
    (hdepth : (ids t).length < maxDepth) :
    (∃ N, ∀ f, N ≤ f →
      HasCodeGo H (some (rid t)) c f
        = some ((ids t).any (fun i => H.code i == some c))) ∧
    (∀ f, HasCodeGo H none c f = some false) ∧
    HasCodeGo joinEx (some 0) "timeout" 10 = some false := by
  refine ⟨?_, fun f => rfl, by decide⟩
  obtain ⟨N, hN⟩ :=
    walk_trace_core H (fun id => ! (H.code id == some c)) t hrep hnd hdepth
  refine ⟨N, fun f hf => ?_⟩
  have hgo := hN f hf
  show (walkGo H (fun id => ! (H.code id == some c)) (some (rid t)) f).map
      (fun tr => tr.any (fun id => H.code id == some c))
    = some ((ids t).any (fun i => H.code i == some c))
  rw [hgo]
  have hany : (preTr (fun id => ! (H.code id == some c)) t).1.any
        (fun id => H.code id == some c)
      = (ids t).any (fun i => H.code i == some c) := by
    have hspec := preTr_spec (fun id => ! (H.code id == some c)) t
    rcases hflag : (preTr (fun id => ! (H.code id == some c)) t).2 with _ | _
    · obtain ⟨x, hx1, hx2⟩ := hspec.2.2 hflag
      have hx2' : (H.code x == some c) = true := by simpa using hx2
      have h1 : (preTr (fun id => ! (H.code id == some c)) t).1.any
          (fun id => H.code id == some c) = true :=
        List.any_eq_true.mpr ⟨x, hx1, hx2'⟩
      have h2 : (ids t).any (fun i => H.code i == some c) = true :=
        List.any_eq_true.mpr ⟨x, hspec.1 hx1, hx2'⟩
      rw [h1, h2]
    · rw [(hspec.2.1 hflag).1]
  rw [Option.map_some', hany]


/-- A sample heap: a join of a leaf and a single-cause chain. -/
def flTestHeap : Heap :=
  ⟨fun i => if i = 0 then .multi [some 1, some 2]
            else if i = 2 then .single (some 3) else .leaf,
   fun _ => true, fun _ => none⟩

/-- The tree the sample heap represents. -/
def flTestTree : ETr :=
  .multiT 0 (.fcons (.leafT 1) (.fcons (.singleT 2 (.leafT 3)) .fnil))

theorem flatten_returns_leaves_witness :
    ∃ N, ∀ f, N ≤ f →
      flattenGo flTestHeap (some (rid flTestTree)) f
        = some ((ids flTestTree).filter (fun i => noExpansion flTestHeap i)) :=
  (flatten_returns_leaves flTestHeap flTestTree (by decide) (by decide)
    (by decide)).1

theorem walk_preorder_early_stop_witness :
    ∃ N, ∀ f, N ≤ f →
      walkGo flTestHeap (fun _ => true) (some (rid flTestTree)) f
        = some (preTr (fun _ => true) flTestTree).1 :=
  (walk_preorder_early_stop flTestHeap (fun _ => true) flTestTree (by decide)
    (by decide) (by decide)).1

theorem hascode_scans_all_branches_witness :
    ∃ N, ∀ f, N ≤ f →
      HasCodeGo flTestHeap (some (rid flTestTree)) "x" f
        = some ((ids flTestTree).any
            (fun i => flTestHeap.code i == some "x")) :=
  (hascode_scans_all_branches flTestHeap flTestTree "x" (by decide) (by decide)
    (by decide)).1


end XgxTrav

